import Mathlib

/-!
Verification of the IntelliMap column-mapping engine: a shallow embedding of
`src/utils/mapper.py`, the mapping-edit step of `src/app.py`, and the
serialization helpers of `src/utils/metadata_manager.py`.

Modelling conventions:
* Python `float` scores and confidences are modelled as `ℚ` (all arithmetic the
  engine performs on them is exact decimal/rational arithmetic).
* Python dicts are association lists (`List (String × _)`) whose keys are kept
  unique by the insertion helpers; lookup returns the first matching key.
* pandas Series cells are `Option String`: `none` is a null, `some s` the
  stringified scalar (the code applies `astype(str)` before inspecting values).
* `pd.to_numeric` / `pd.to_datetime` element parsers and external library
  functions (rapidfuzz ratios, `scipy.optimize.linear_sum_assignment`) are
  modelled where needed; doc comments below mark each such model.
-/

section
attribute [local semireducible] Rat.add Rat.mul Rat.sub Rat.inv

/-- Characters accepted by Python's `str.split()` (and the regex class `\s`)
as whitespace, restricted to the ASCII range. -/
def isPySpace (c : Char) : Bool :=
  c = ' ' || c = '\t' || c = '\n' || c = '\r' || c.toNat = 11 || c.toNat = 12

/-- Characters kept by the regex `[^a-zA-Z0-9\s]` deletion in
`normalize_header`, apart from whitespace: ASCII letters and digits. -/
def isAsciiAlnum (c : Char) : Bool :=
  c.isAlpha || c.isDigit

/-- Explicit table mapping the 26 ASCII uppercase letters to lowercase. -/
def upperLowerTable : List (Char × Char) :=
  [('A', 'a'), ('B', 'b'), ('C', 'c'), ('D', 'd'), ('E', 'e'), ('F', 'f'),
   ('G', 'g'), ('H', 'h'), ('I', 'i'), ('J', 'j'), ('K', 'k'), ('L', 'l'),
   ('M', 'm'), ('N', 'n'), ('O', 'o'), ('P', 'p'), ('Q', 'q'), ('R', 'r'),
   ('S', 's'), ('T', 't'), ('U', 'u'), ('V', 'v'), ('W', 'w'), ('X', 'x'),
   ('Y', 'y'), ('Z', 'z')]

/-- Models Python's `str.lower()` per character, for the ASCII range: the 26
uppercase letters map to their lowercase forms, every other character is kept.
(Non-ASCII case mapping is immaterial here: `normalize_header` deletes every
non-ASCII character right after lowering.) -/
def pyLower (c : Char) : Char :=
  match upperLowerTable.find? (fun p => p.1 = c) with
  | some p => p.2
  | none => c

/-- Accumulator-based worker for Python's whitespace `str.split()`:
`acc` holds the reversed characters of the word currently being read. -/
def splitWsAux : List Char → List Char → List (List Char)
  | [], acc => if acc = [] then [] else [acc.reverse]
  | c :: cs, acc =>
    if isPySpace c then
      if acc = [] then splitWsAux cs []
      else acc.reverse :: splitWsAux cs []
    else
      splitWsAux cs (c :: acc)

/-- Models Python's `str.split()` with no separator: split on runs of
whitespace, dropping empty fields. -/
def pySplit (s : List Char) : List (List Char) :=
  splitWsAux s []

/-- Models `' '.join(ws)`: interleave a single space between the fragments. -/
def joinSpace : List (List Char) → List Char
  | [] => []
  | [w] => w
  | w :: ws => w ++ ' ' :: joinSpace ws

/-- The `SmartMapper.ABBREVIATIONS` table of `src/utils/mapper.py`. -/
def ABBREVIATIONS : List (String × String) :=
  [("addr", "address"),
   ("qty", "quantity"),
   ("desc", "description"),
   ("num", "number"),
   ("amt", "amount"),
   ("dt", "date"),
   ("tel", "telephone"),
   ("mob", "mobile"),
   ("fname", "first name"),
   ("lname", "last name"),
   ("dob", "date of birth"),
   ("ssn", "social security number"),
   ("ein", "employer identification number"),
   ("org", "organization"),
   ("dept", "department"),
   ("mgr", "manager"),
   ("emp", "employee"),
   ("cust", "customer"),
   ("prod", "product"),
   ("cat", "category"),
   ("ref", "reference"),
   ("no", "number"),
   ("st", "street"),
   ("ave", "avenue"),
   ("blvd", "boulevard"),
   ("dr", "drive"),
   ("ln", "lane"),
   ("rd", "road"),
   ("ct", "court"),
   ("pl", "place")]

/-- Expansion of one word through `ABBREVIATIONS` (Python
`self.ABBREVIATIONS.get(word, word)`). -/
def expandAbbrev (w : List Char) : List Char :=
  match ABBREVIATIONS.find? (fun p => p.1.data = w) with
  | some p => p.2.data
  | none => w

/-- Embeds `SmartMapper.normalize_header` on character lists: lowercase,
delete characters outside `[a-zA-Z0-9\s]`, collapse whitespace runs to single
spaces, then expand each word through the abbreviation table. -/
def normalizeL (header : List Char) : List Char :=
  let lowered := header.map pyLower
  let stripped := lowered.filter (fun c => isAsciiAlnum c || isPySpace c)
  let normalized := joinSpace (pySplit stripped)
  let words := pySplit normalized
  let expanded_words := words.map expandAbbrev
  joinSpace expanded_words

/-- String-level wrapper of `normalizeL`, the embedded
`SmartMapper.normalize_header`. -/
def normalize_header (header : String) : String :=
  ⟨normalizeL header.data⟩

/-- The `SmartMapper.FIELD_SYNONYMS` table of `src/utils/mapper.py`. -/
def FIELD_SYNONYMS : List (String × List String) :=
  [("email", ["email", "e-mail", "mail", "email address", "electronic mail", "e mail"]),
   ("phone", ["phone", "telephone", "mobile", "cell", "contact number", "phone number", "tel", "contact", "phone no"]),
   ("name", ["name", "full name", "fullname", "customer name", "person name", "client name"]),
   ("first_name", ["first name", "firstname", "given name", "fname", "first"]),
   ("last_name", ["last name", "lastname", "surname", "family name", "lname", "last"]),
   ("address", ["address", "street address", "location", "addr", "street", "address line"]),
   ("city", ["city", "town", "municipality"]),
   ("state", ["state", "province", "region"]),
   ("zip", ["zip", "zipcode", "postal code", "postcode", "zip code", "postal"]),
   ("country", ["country", "nation"]),
   ("date", ["date", "dt", "timestamp", "time", "datetime"]),
   ("id", ["id", "identifier", "uid", "unique id", "record id", "customer id", "user id"]),
   ("amount", ["amount", "total", "sum", "value", "price", "cost", "amt"]),
   ("quantity", ["quantity", "qty", "count", "number", "num"]),
   ("description", ["description", "desc", "details", "notes", "comments"]),
   ("status", ["status", "state", "condition"]),
   ("company", ["company", "organization", "org", "business", "company name"]),
   ("title", ["title", "job title", "position", "role"]),
   ("department", ["department", "dept", "division"]),
   ("salary", ["salary", "wage", "pay", "compensation"]),
   ("age", ["age", "years old", "yrs"]),
   ("gender", ["gender", "sex"]),
   ("website", ["website", "url", "web", "site"])]

/-- Embeds `SmartMapper._check_synonym_match`: 95 when both (normalized) terms
occur verbatim in the variant list of one synonym group, else 0. -/
def check_synonym_match (term1 term2 : List Char) : ℚ :=
  if FIELD_SYNONYMS.any (fun cat =>
      cat.2.any (fun syn => term1 = syn.data) && cat.2.any (fun syn => term2 = syn.data))
  then 95 else 0

/-- Worker for `lcsLen`: given `f = lcsLen as`, computes `lcsLen (a :: as)`
by structural recursion on the second string. -/
def lcsWith (f : List Char → ℕ) (a : Char) : List Char → ℕ
  | [] => 0
  | b :: bs => if a = b then f bs + 1 else max (lcsWith f a bs) (f (b :: bs))

/-- Length of a longest common subsequence of two character lists; the basis of
the Indel (insertion/deletion-only Levenshtein) distance used by rapidfuzz. -/
def lcsLen : List Char → List Char → ℕ
  | [] => fun _ => 0
  | a :: as => lcsWith (lcsLen as) a

/-- Models rapidfuzz's Indel distance: minimal number of insertions plus
deletions turning one string into the other,
`len1 + len2 - 2 * lcs(s1, s2)`. -/
def indelDist (s1 s2 : List Char) : ℕ :=
  s1.length + s2.length - 2 * lcsLen s1 s2

/-- Normalized similarity `100 - 100 * dist / total` used by the rapidfuzz
ratios, with the library's convention that an empty comparison scores 100. -/
def normRatio (dist total : ℕ) : ℚ :=
  if total = 0 then 100 else 100 - 100 * (dist : ℚ) / (total : ℚ)

/-- Models `rapidfuzz.fuzz.ratio`: Indel similarity normalized over the summed
lengths, scaled to 0..100. -/
def fuzzRatio (s1 s2 : List Char) : ℚ :=
  normRatio (indelDist s1 s2) (s1.length + s2.length)

/-- Lexicographic (code-point) strict order on character lists, as used by
Python's `sorted` on strings. -/
def lexLt : List Char → List Char → Bool
  | [], [] => false
  | [], _ :: _ => true
  | _ :: _, [] => false
  | a :: as, b :: bs =>
    if a = b then lexLt as bs else decide (a < b)

/-- Insertion of one word into a lexicographically sorted word list. -/
def insertWord (x : List Char) : List (List Char) → List (List Char)
  | [] => [x]
  | y :: ys => if lexLt x y then x :: y :: ys else y :: insertWord x ys

/-- Models Python's `sorted` on a list of words (ascending code-point order). -/
def sortWords : List (List Char) → List (List Char)
  | [] => []
  | x :: xs => insertWord x (sortWords xs)

/-- Models `rapidfuzz.fuzz.token_sort_ratio`: `fuzz.ratio` applied to the two
strings rebuilt from their whitespace tokens in sorted order. -/
def token_sort_ratio (s1 s2 : List Char) : ℚ :=
  fuzzRatio (joinSpace (sortWords (pySplit s1))) (joinSpace (sortWords (pySplit s2)))

/-- Computable maximum of two rationals (Python's `max`). -/
def qmax (a b : ℚ) : ℚ :=
  if a ≤ b then b else a

/-- Models `rapidfuzz.fuzz.token_set_ratio`: set-decompose the two token sets
into intersection and differences; score 100 when one token set contains the
other (with nonempty intersection); otherwise the maximum of the Indel
similarity of the joined sorted differences (normalized over both full
sentence lengths) and the two intersection-versus-full-sentence similarities.
An input without tokens scores 0 (the caller below only reaches this function
with both token sets nonempty). -/
def token_set_ratio (s1 s2 : List Char) : ℚ :=
  let tokens_a := (pySplit s1).dedup
  let tokens_b := (pySplit s2).dedup
  if tokens_a = [] ∨ tokens_b = [] then 0
  else
    let intersect := tokens_a.filter (· ∈ tokens_b)
    let diff_ab := tokens_a.filter (· ∉ tokens_b)
    let diff_ba := tokens_b.filter (· ∉ tokens_a)
    if intersect ≠ [] ∧ (diff_ab = [] ∨ diff_ba = []) then 100
    else
      let diff_ab_joined := joinSpace (sortWords diff_ab)
      let diff_ba_joined := joinSpace (sortWords diff_ba)
      let ab_len := diff_ab_joined.length
      let ba_len := diff_ba_joined.length
      let sect_len := (joinSpace intersect).length
      let sectMark : ℕ := if sect_len ≠ 0 then 1 else 0
      let sect_ab_len := sect_len + sectMark + ab_len
      let sect_ba_len := sect_len + sectMark + ba_len
      let dist := indelDist diff_ab_joined diff_ba_joined
      let result := normRatio dist (sect_ab_len + sect_ba_len)
      let sect_ab_ratio := normRatio (sectMark + ab_len) (sect_len + sect_ab_len)
      let sect_ba_ratio := normRatio (sectMark + ba_len) (sect_len + sect_ba_len)
      qmax result (qmax sect_ab_ratio sect_ba_ratio)

/-- Embeds `SmartMapper._calculate_match_score`: the priority cascade scoring
two raw column-name strings in 0..100. -/
def calculate_match_score (template_col raw_col : String) : ℚ :=
  let norm_template := normalizeL template_col.data
  let norm_raw := normalizeL raw_col.data
  if norm_template = norm_raw then 100
  else
    let synonym_score := check_synonym_match norm_template norm_raw
    if synonym_score > 0 then synonym_score
    else
      let template_words := (pySplit norm_template).dedup
      let raw_words := (pySplit norm_raw).dedup
      if template_words = [] ∨ raw_words = [] then 0
      else
        let shorter_set :=
          if template_words.length ≤ raw_words.length then template_words else raw_words
        let longer_set :=
          if template_words.length ≤ raw_words.length then raw_words else template_words
        if shorter_set.all (· ∈ longer_set) then 95
        else
          let common_words := template_words.filter (· ∈ raw_words)
          let word_overlap : ℚ :=
            (common_words.length : ℚ) / ((max template_words.length raw_words.length : ℕ) : ℚ)
          if common_words ≠ [] ∧ word_overlap > 1/2 then 70 + word_overlap * 20
          else
            let token_sort_score := token_sort_ratio norm_template norm_raw
            let token_set_score := token_set_ratio norm_template norm_raw
            let token_score := (token_sort_score + token_set_score) / 2
            if token_score ≥ 70 then token_score else 0

/-- Deduplicated word set of a normalized header (the `set(norm.split())` of
`_calculate_match_score`), as a list. -/
def normWords (s : String) : List (List Char) :=
  (pySplit (normalizeL s.data)).dedup

/-- The word-overlap ratio `|intersection| / max(|set1|, |set2|)` of
`_calculate_match_score`. -/
def wordOverlapQ (t r : String) : ℚ :=
  (((normWords t).filter (· ∈ normWords r)).length : ℚ) /
    ((max (normWords t).length (normWords r).length : ℕ) : ℚ)

/-- The subset test of `_calculate_match_score`: all words of the smaller
word set (the template's on ties) occur in the larger. -/
def isSubsetSmaller (t r : String) : Bool :=
  (if (normWords t).length ≤ (normWords r).length then normWords t else normWords r).all
    (· ∈ (if (normWords t).length ≤ (normWords r).length then normWords r else normWords t))

/-- The fallback fuzzy score of `_calculate_match_score`: average of the
token-sort and token-set ratios of the two normalized names. -/
def tokenAvg (t r : String) : ℚ :=
  (token_sort_ratio (normalizeL t.data) (normalizeL r.data) +
    token_set_ratio (normalizeL t.data) (normalizeL r.data)) / 2

/-- Lookup in a Python-dict model (association list): value of the first
entry carrying the key. -/
def lookupA {α : Type} (m : List (String × α)) (k : String) : Option α :=
  (m.find? (fun p => p.1 = k)).map (fun p => p.2)

/-- Models the Python dict assignment `d[k] = v`: replace the value in place
when the key exists (a dict holds each key once), else append the new entry
(insertion order kept). -/
def dictInsert {α : Type} : List (String × α) → String → α → List (String × α)
  | [], k, v => [(k, v)]
  | p :: t, k, v => if p.1 = k then (k, v) :: t else p :: dictInsert t k v

/-- The engine's Mapping: template column name to
(source column or absent, confidence). -/
abbrev Mapping := List (String × (Option String × ℚ))

/-- Enumeration of all row-wise one-to-one partial assignments: a list entry
per row, holding `none` (row unassigned) or a column index drawn without
repetition from `avail`. -/
def matchLists : ℕ → List ℕ → List (List (Option ℕ))
  | 0, _ => [[]]
  | n + 1, avail =>
    ((matchLists n avail).map (fun l => none :: l)) ++
    (avail.map (fun c => (matchLists n (avail.erase c)).map (fun l => some c :: l))).flatten

/-- Number of assigned rows of an assignment list. -/
def somesCount (l : List (Option ℕ)) : ℕ :=
  (l.filterMap id).length

/-- Sum of `w i j` over the assigned pairs (row `i`, column `j`) of an
assignment list, rows counted from `i0`. -/
def assignSumFrom (w : ℕ → ℕ → ℚ) : ℕ → List (Option ℕ) → ℚ
  | _, [] => 0
  | i, none :: rest => assignSumFrom w (i + 1) rest
  | i, some j :: rest => w i j + assignSumFrom w (i + 1) rest

/-- Sum of `w i j` over the assigned pairs of an assignment list. -/
def assignSum (w : ℕ → ℕ → ℚ) (l : List (Option ℕ)) : ℚ :=
  assignSumFrom w 0 l

/-- First minimizer of `f` in a list (deterministic tie-break: the earliest
minimum wins). -/
def argminQ {α : Type} (f : α → ℚ) : List α → Option α
  | [] => none
  | x :: xs => some (xs.foldl (fun b a => if f a < f b then a else b) x)

/-- Models `scipy.optimize.linear_sum_assignment` on the `n × m` cost matrix
`cost`: among all one-to-one assignments of maximal size `min n m` (a
rectangular matrix leaves the excess rows or columns unassigned), return one
minimizing the summed cost, by exhaustive enumeration. scipy's tie-break
among equal-cost optima is implementation-defined; this model breaks ties by
enumeration order, and every property proved below is tie-break independent.
The result holds row `i`'s assigned column at position `i`. -/
def linear_sum_assignment (cost : ℕ → ℕ → ℚ) (n m : ℕ) : List (Option ℕ) :=
  let fulls := (matchLists n (List.range m)).filter (fun l => somesCount l = min n m)
  match argminQ (assignSum cost) fulls with
  | some l => l
  | none => List.replicate n none

/-- Cost-matrix entry `100.0 - score` built by `fuzzy_match_headers` for
template row `i` and raw column `j`. -/
def fmhCost (raw_columns template_columns : List String) (i j : ℕ) : ℚ :=
  100 - calculate_match_score (template_columns.getD i "") (raw_columns.getD j "")

/-- The optimal assignment `fuzzy_match_headers` computes before threshold
filtering (`linear_sum_assignment` on its cost matrix). -/
def internalAssignment (raw_columns template_columns : List String) : List (Option ℕ) :=
  linear_sum_assignment (fmhCost raw_columns template_columns)
    template_columns.length raw_columns.length

/-- Value stored by `fuzzy_match_headers` for template row `i`: recover
`score = 100 - cost` for the assigned raw column and accept it only when the
score meets the threshold, else `(None, 0.0)`; an unassigned row also gets
`(None, 0.0)`. -/
def fmhEntry (similarity_threshold : ℚ) (raw_columns template_columns : List String)
    (i : ℕ) : Option String × ℚ :=
  match (internalAssignment raw_columns template_columns).getD i none with
  | some j =>
    let score := 100 - fmhCost raw_columns template_columns i j
    if score ≥ similarity_threshold then (some (raw_columns.getD j ""), score / 100)
    else (none, 0)
  | none => (none, 0)

/-- Embeds `SmartMapper.fuzzy_match_headers`: empty input short-circuit, the
Hungarian assignment over the pairwise score matrix, then the
per-template-column threshold gate building the Mapping dict. -/
def fuzzy_match_headers (similarity_threshold : ℚ)
    (raw_columns template_columns : List String) : Mapping :=
  if raw_columns = [] ∨ template_columns = [] then
    template_columns.foldl (fun acc c => dictInsert acc c (none, 0)) []
  else
    template_columns.enum.foldl (fun acc p =>
      dictInsert acc p.2 (fmhEntry similarity_threshold raw_columns template_columns p.1)) []

/-- Well-formed one-to-one partial assignment for an `n × m` matrix: one slot
per row, assigned columns below `m` and pairwise distinct. -/
def isMatchList (n m : ℕ) (l : List (Option ℕ)) : Prop :=
  l.length = n ∧ (∀ j ∈ l.filterMap id, j < m) ∧ (l.filterMap id).Nodup

/-- A canonical full-size assignment: the first `min n m` rows take the first
columns in order, remaining rows are unassigned. -/
def canonicalFull (n m : ℕ) : List (Option ℕ) :=
  (List.range (min n m)).map some ++ List.replicate (n - min n m) none

/-- One-to-one property of a Mapping: entries under distinct template columns
never carry the same non-absent source column. -/
def oneToOne (m : Mapping) : Prop :=
  ∀ e1 ∈ m, ∀ e2 ∈ m, e1.1 ≠ e2.1 → e1.2.1 ≠ none → e2.2.1 ≠ none → e1.2.1 ≠ e2.2.1

/-- Characters of the local part of the email regex
`^[a-zA-Z0-9._%+-]+@[a-zA-Z0-9.-]+\.[a-zA-Z]{2,}$`. -/
def emailLocalChar (c : Char) : Bool :=
  c.isAlpha || c.isDigit || c = '.' || c = '_' || c = '%' || c = '+' || c = '-'

/-- Characters of the domain part (before the final dot) of the email regex. -/
def emailDomainChar (c : Char) : Bool :=
  c.isAlpha || c.isDigit || c = '.' || c = '-'

/-- Match of `[a-zA-Z0-9.-]+\.[a-zA-Z]{2,}` against the whole of `s`: some
dot position splits `s` into a nonempty domain-character prefix and an
all-alphabetic suffix of length at least 2. -/
def emailCore (s : List Char) : Bool :=
  (List.range s.length).any (fun p =>
    s.getD p ' ' = '.' && decide (1 ≤ p) && (s.take p).all emailDomainChar &&
      (2 ≤ (s.drop (p + 1)).length && (s.drop (p + 1)).all Char.isAlpha))

/-- Models `re.match` of the email pattern of `detect_data_patterns` against a
whole string; the final `$` also matches just before one trailing newline. -/
def emailMatch (s : List Char) : Bool :=
  let local_part := s.takeWhile (fun c => c ≠ '@')
  match s.dropWhile (fun c => c ≠ '@') with
  | [] => false
  | _ :: after =>
    !local_part.isEmpty && local_part.all emailLocalChar &&
    (emailCore after || (after.getLast? = some '\n' && emailCore after.dropLast))

/-- Deletion of currency symbols and separators before the numeric test:
the code runs `re.sub(r'[$,£€]', '', x)` followed by `.replace(',', '')`,
which together delete exactly these four characters. -/
def stripCurrencySeps (s : List Char) : List Char :=
  s.filter (fun c => !(c = '$' || c = ',' || c = '£' || c = '€'))

/-- Embeds `SmartMapper.detect_data_patterns`. The element parsers of
`pd.to_numeric` and `pd.to_datetime` are external library functions taken as
parameters (`numOracle x` is true when `pd.to_numeric` parses `x`,
`dateOracle x` when `pd.to_datetime` yields a valid date for `x`); every
property proved about this function holds for all oracles. -/
def detect_data_patterns (numOracle dateOracle : String → Bool)
    (series : List (Option String)) : String :=
  let sample0 := series.filterMap id
  if sample0.length = 0 then "text"
  else
    let sample := sample0.take 10
    if sample.all (fun x => emailMatch x.data) then "email"
    else
      let numeric_clean := sample.map (fun x => String.mk (stripCurrencySeps x.data))
      if numeric_clean.all numOracle then "numeric"
      else if sample.length < 2 * sample.countP (fun x => dateOracle x) then "date"
      else "text"

/-- Tabular dataset model: ordered named columns of nullable stringified
cells. -/
abbrev DataFrame := List (String × List (Option String))

/-- Column names of a dataset, in order. -/
def dfColumns (df : DataFrame) : List String :=
  df.map (fun p => p.1)

/-- Per-column value patterns (`{col: detect_data_patterns(df[col]) ...}`). -/
def dfPatterns (numOracle dateOracle : String → Bool) (df : DataFrame) :
    List (String × String) :=
  df.map (fun p => (p.1, detect_data_patterns numOracle dateOracle p.2))

/-- Inner loop of `semantic_pattern_match` over the not-yet-used raw columns:
find the first unused raw column whose pattern equals the target's pattern
while the target's current confidence is below 0.6; return it together with
the unused pool with that column popped (order otherwise kept). -/
def spmFindMatch (raw_patterns : List (String × String)) (tpat : String) (cur : ℚ) :
    List String → Option (String × List String)
  | [] => none
  | r :: rest =>
    if lookupA raw_patterns r = some tpat ∧ cur < 3/5 then some (r, rest)
    else
      match spmFindMatch raw_patterns tpat cur rest with
      | none => none
      | some (r2, rest2) => some (r2, r :: rest2)

/-- Outer loop of `semantic_pattern_match` over the under-confident template
columns, threading the enhanced mapping and the unused raw-column pool. -/
def spmLoop (rp tp : List (String × String)) :
    List String → Mapping → List String → Mapping
  | [], em, _ => em
  | t :: ts, em, unused =>
    match lookupA tp t with
    | none => spmLoop rp tp ts em unused
    | some tpat =>
      if tpat = "text" then spmLoop rp tp ts em unused
      else
        match lookupA em t with
        | none => spmLoop rp tp ts em unused
        | some cur_entry =>
          match spmFindMatch rp tpat cur_entry.2 unused with
          | none => spmLoop rp tp ts em unused
          | some (r, rest) => spmLoop rp tp ts (dictInsert em t (some r, 3/5)) rest

/-- Embeds `SmartMapper.semantic_pattern_match`: enhance under-confident
entries (absent source or confidence below 0.8) of the name-based Mapping by
pairing them with so-far-unused raw columns of equal value pattern, at fixed
confidence 0.6. -/
def semantic_pattern_match (numOracle dateOracle : String → Bool)
    (raw_df template_df : DataFrame) (mappings : Mapping) : Mapping :=
  let raw_patterns := dfPatterns numOracle dateOracle raw_df
  let template_patterns := dfPatterns numOracle dateOracle template_df
  let unmapped_template := mappings.filterMap (fun e =>
    if e.2.1 = none ∨ e.2.2 < 4/5 then some e.1 else none)
  let mapped_raw := mappings.filterMap (fun e => e.2.1)
  let unused_raw := (dfColumns raw_df).filter (fun c => !(mapped_raw.contains c))
  spmLoop raw_patterns template_patterns unmapped_template mappings unused_raw

/-- Row count of a dataset (`len(df)`); the columns of a well-typed dataset
all have this length. -/
def dfLen (df : DataFrame) : ℕ :=
  match df with
  | [] => 0
  | p :: _ => p.2.length

/-- Sampling pass of `_detect_value_contamination`: per column, skip it when
more than 90 percent of the rows hold distinct values, otherwise draw
`min(sample_size, len(df[col]))` values from the non-null pool and keep the
distinct sampled values. `pandas.Series.sample` raises `ValueError` when
asked for more values than the non-null pool holds; `none` models that raised
error. The random draw itself is modelled by taking the first `n` non-null
values (no property proved below depends on which values a draw returns). -/
def buildStrSamples (sample_size rowCount : ℕ) :
    List (String × List (Option String)) → Option (List (String × List String))
  | [] => some []
  | (col, vals) :: rest =>
    if ((((vals.filterMap id).dedup.length : ℕ) : ℚ) > (rowCount : ℚ) * (9/10)) then
      buildStrSamples sample_size rowCount rest
    else
      let nonNull := vals.filterMap id
      let n := min sample_size vals.length
      if nonNull.length < n then none
      else
        match buildStrSamples sample_size rowCount rest with
        | none => none
        | some tailSamples =>
          if 0 < (nonNull.take n).length then (col, (nonNull.take n).dedup) :: tailSamples
          else tailSamples

/-- Appending to a contamination-report entry
(`contamination.setdefault(k, []).append(v)` shape of the source). -/
def addContam (d : List (String × List String)) (k : String) (v : String) :
    List (String × List String) :=
  if d.any (fun p => p.1 = k) then d.map (fun p => if p.1 = k then (p.1, p.2 ++ [v]) else p)
  else d ++ [(k, [v])]

/-- The `f"{col} ({int(pct*100)}% overlap)"` report string; `int` truncates
and the percentage is positive here, so it is the floor. -/
def pctString (col : String) (pct : ℚ) : String :=
  col ++ " (" ++ toString (Rat.floor (pct * 100)) ++ "% overlap)"

/-- Pair comparison step of `_detect_value_contamination` for one ordered
pair of sampled columns. -/
def contamStep (d : List (String × List String)) (c1 c2 : String × List String) :
    List (String × List String) :=
  let common := c1.2.filter (fun v => c2.2.contains v)
  if 0 < common.length then
    let overlap_pct : ℚ := (common.length : ℚ) / ((min c1.2.length c2.2.length : ℕ) : ℚ)
    if overlap_pct > 1/10 then
      addContam (addContam d c1.1 (pctString c2.1 overlap_pct)) c2.1 (pctString c1.1 overlap_pct)
    else d
  else d

/-- All-ordered-pairs loop of `_detect_value_contamination`. -/
def contamOuter (d : List (String × List String)) :
    List (String × List String) → List (String × List String)
  | [] => d
  | c1 :: rest => contamOuter (rest.foldl (fun dd c2 => contamStep dd c1 c2) d) rest

/-- Embeds `SmartMapper._detect_value_contamination`; `none` models the
`ValueError` that `pandas.Series.sample` raises inside it. -/
def detect_value_contamination (df : DataFrame) (sample_size : ℕ) :
    Option (List (String × List String)) :=
  match buildStrSamples sample_size (dfLen df) df with
  | none => none
  | some samples => some (contamOuter [] samples)

/-- Embeds the per-row mapping update of the review surface
(`src/app.py`, the `edited_mappings[template_col] = ...` branch): given the
auto-computed confidence of the row and the reviewer's selectbox choice
(`"<No Match>"` meaning no source), produce the edited entry. The code keeps
the auto confidence whenever it is positive and uses 1.0 only when it is 0;
it never compares the selection against the auto-computed suggestion. -/
def app_update_mapping (confidence : ℚ) (selected : String) : Option String × ℚ :=
  if selected ≠ "<No Match>" then (some selected, if confidence > 0 then confidence else 1)
  else (none, 0)

/-- Invariant threaded through `spmLoop`: relative to the original mapping
`m0`, the template-pattern table `tp`, and the original unused pool `U0`,
every entry is either untouched or rewritten to a fresh pool column at
confidence 0.6, rewritten entries use pairwise distinct pool columns, and
the current pool is a duplicate-free subset of `U0` disjoint from the
rewritten columns. -/
def spmInv (tp : List (String × String)) (m0 : Mapping) (U0 : List String)
    (em : Mapping) (unused : List String) : Prop :=
  (∀ x ∈ unused, x ∈ U0) ∧ unused.Nodup ∧
  (∀ t, lookupA em t = lookupA m0 t ∨
    (∃ p r, lookupA m0 t = some p ∧ p.2 < 3/5 ∧ lookupA em t = some (some r, 3/5) ∧
      r ∈ U0 ∧ r ∉ unused ∧ lookupA tp t ≠ none ∧ lookupA tp t ≠ some "text")) ∧
  (∀ t1 t2 r1 r2, t1 ≠ t2 →
    lookupA em t1 ≠ lookupA m0 t1 → lookupA em t1 = some (some r1, 3/5) →
    lookupA em t2 ≠ lookupA m0 t2 → lookupA em t2 = some (some r2, 3/5) →
    r1 ≠ r2)

/-- Python truthiness of a mapping's source column: `None` and the empty
string are falsy. -/
def pyTruthyCol (c : Option String) : Bool :=
  match c with
  | none => false
  | some s => !(s = "")

/-- Embeds `MetadataManager._serialize_mappings`: per entry, the source
column, `float(confidence) if confidence else 0.0`, and the label
`'automatic' if confidence and confidence >= 80 else 'manual'`. -/
def serialize_mappings (mappings : Mapping) :
    List (String × (Option String × ℚ × String)) :=
  mappings.map (fun e =>
    (e.1, (e.2.1,
           if e.2.2 ≠ 0 then e.2.2 else 0,
           if e.2.2 ≠ 0 ∧ e.2.2 ≥ 80 then "automatic" else "manual")))

/-- Embeds `MetadataManager._calculate_mapping_quality` as the list of
reported key/number pairs (the empty-mapping branch reports a different key
set, as in the source). -/
def calculate_mapping_quality (mappings : Mapping) : List (String × ℚ) :=
  let total := mappings.length
  if total = 0 then [("overall_score", 0), ("completeness", 0), ("confidence", 0)]
  else
    let mapped := mappings.countP (fun e => e.2.1.isSome)
    let high_confidence := mappings.countP (fun e => pyTruthyCol e.2.1 && e.2.2 ≥ 80)
    let confSum := (mappings.filterMap (fun e =>
      if pyTruthyCol e.2.1 then some e.2.2 else none)).sum
    let avg_confidence := if 0 < mapped then confSum / (mapped : ℚ) else 0
    [("overall_score", (mapped : ℚ) / (total : ℚ) * 100),
     ("completeness", (mapped : ℚ) / (total : ℚ) * 100),
     ("average_confidence", avg_confidence),
     ("high_confidence_mappings", (high_confidence : ℚ)),
     ("total_mappings", (total : ℚ)),
     ("successful_mappings", (mapped : ℚ))]

/-! ### Facts about normalization (claim C9) -/

theorem pyLower_fix_table : ∀ p ∈ upperLowerTable, pyLower p.2 = p.2 := by decide

theorem pyLower_pyLower (c : Char) : pyLower (pyLower c) = pyLower c := by
  rcases h : upperLowerTable.find? (fun p => p.1 = c) with _ | p
  · have hc : pyLower c = c := by unfold pyLower; rw [h]
    rw [hc]
    exact hc
  · have hc : pyLower c = p.2 := by unfold pyLower; rw [h]
    rw [hc]
    exact pyLower_fix_table p (List.mem_of_find?_eq_some h)

theorem splitWsAux_chars (s : List Char) :
    ∀ acc w, w ∈ splitWsAux s acc → ∀ c ∈ w, c ∈ s ∨ c ∈ acc := by
  induction s with
  | nil =>
    intro acc w hw c hc
    by_cases ha : acc = []
    · simp [splitWsAux, ha] at hw
    · simp [splitWsAux, ha] at hw
      subst hw
      exact Or.inr (List.mem_reverse.1 hc)
  | cons a s ih =>
    intro acc w hw c hc
    by_cases hsp : isPySpace a = true
    · by_cases ha : acc = []
      · simp [splitWsAux, hsp, ha] at hw
        rcases ih [] w hw c hc with h | h
        · exact Or.inl (List.mem_cons_of_mem _ h)
        · simp at h
      · simp [splitWsAux, hsp, ha] at hw
        rcases hw with hw | hw
        · subst hw
          exact Or.inr (List.mem_reverse.1 hc)
        · rcases ih [] w hw c hc with h | h
          · exact Or.inl (List.mem_cons_of_mem _ h)
          · simp at h
    · simp [splitWsAux, hsp] at hw
      rcases ih (a :: acc) w hw c hc with h | h
      · exact Or.inl (List.mem_cons_of_mem _ h)
      · rcases List.mem_cons.1 h with h | h
        · exact Or.inl (h ▸ List.mem_cons_self a s)
        · exact Or.inr h

theorem splitWsAux_words (s : List Char) :
    ∀ acc, (∀ c ∈ acc, ¬ isPySpace c = true) →
      ∀ w ∈ splitWsAux s acc, w ≠ [] ∧ ∀ c ∈ w, ¬ isPySpace c = true := by
  induction s with
  | nil =>
    intro acc hacc w hw
    by_cases ha : acc = []
    · simp [splitWsAux, ha] at hw
    · simp [splitWsAux, ha] at hw
      subst hw
      refine ⟨by simpa using ha, ?_⟩
      intro c hc
      exact hacc c (List.mem_reverse.1 hc)
  | cons a s ih =>
    intro acc hacc w hw
    by_cases hsp : isPySpace a = true
    · by_cases ha : acc = []
      · simp [splitWsAux, hsp, ha] at hw
        exact ih [] (by simp) w hw
      · simp [splitWsAux, hsp, ha] at hw
        rcases hw with hw | hw
        · subst hw
          refine ⟨by simpa using ha, ?_⟩
          intro c hc
          exact hacc c (List.mem_reverse.1 hc)
        · exact ih [] (by simp) w hw
    · simp [splitWsAux, hsp] at hw
      refine ih (a :: acc) ?_ w hw
      intro c hc
      rcases List.mem_cons.1 hc with h | h
      · exact h ▸ hsp
      · exact hacc c h

theorem pySplit_words (s : List Char) :
    ∀ w ∈ pySplit s, w ≠ [] ∧ ∀ c ∈ w, ¬ isPySpace c = true :=
  splitWsAux_words s [] (by simp)

theorem pySplit_chars (s : List Char) : ∀ w ∈ pySplit s, ∀ c ∈ w, c ∈ s := by
  intro w hw c hc
  rcases splitWsAux_chars s [] w hw c hc with h | h
  · exact h
  · simp at h

theorem splitWsAux_append_space (rest : List Char) :
    ∀ (xs acc : List Char),
      splitWsAux (xs ++ ' ' :: rest) acc = splitWsAux xs acc ++ splitWsAux rest [] := by
  intro xs
  induction xs with
  | nil =>
    intro acc
    by_cases ha : acc = [] <;>
      simp [splitWsAux, ha, (by decide : isPySpace ' ' = true)]
  | cons a xs ih =>
    intro acc
    by_cases hsp : isPySpace a = true <;> by_cases ha : acc = [] <;>
      simp [splitWsAux, hsp, ha, ih]

theorem splitWsAux_word_chars (w : List Char) (hw : ∀ c ∈ w, ¬ isPySpace c = true) :
    ∀ (s acc : List Char), splitWsAux (w ++ s) acc = splitWsAux s (w.reverse ++ acc) := by
  induction w with
  | nil => intro s acc; simp
  | cons a w ih =>
    intro s acc
    have ha : ¬ isPySpace a = true := hw a (List.mem_cons_self a w)
    have hw' : ∀ c ∈ w, ¬ isPySpace c = true := fun c hc => hw c (List.mem_cons_of_mem a hc)
    simp only [List.cons_append, splitWsAux, ha, if_false, Bool.false_eq_true, List.append_eq]
    rw [ih hw' s (a :: acc)]
    simp

theorem pySplit_single (w : List Char) (hne : w ≠ []) (hw : ∀ c ∈ w, ¬ isPySpace c = true) :
    pySplit w = [w] := by
  have h1 : pySplit w = splitWsAux (w ++ []) [] := by simp [pySplit]
  rw [h1, splitWsAux_word_chars w hw [] []]
  have hrev : w.reverse ++ [] ≠ [] := by simpa using hne
  simp [splitWsAux, hrev, hne]

theorem joinSpace_cons (a : List Char) (l : List (List Char)) (hl : l ≠ []) :
    joinSpace (a :: l) = a ++ ' ' :: joinSpace l := by
  cases l with
  | nil => exact absurd rfl hl
  | cons b t => rfl

theorem pySplit_joinSpace :
    ∀ ws : List (List Char), (∀ w ∈ ws, w ≠ [] ∧ ∀ c ∈ w, ¬ isPySpace c = true) →
      pySplit (joinSpace ws) = ws := by
  intro ws
  induction ws with
  | nil => intro _; simp [joinSpace, pySplit, splitWsAux]
  | cons w ws ih =>
    intro hws
    have hw := hws w (List.mem_cons_self w ws)
    cases ws with
    | nil => simpa [joinSpace] using pySplit_single w hw.1 hw.2
    | cons w2 ws2 =>
      rw [joinSpace_cons w (w2 :: ws2) (by simp)]
      show splitWsAux (w ++ ' ' :: joinSpace (w2 :: ws2)) [] = w :: w2 :: ws2
      rw [splitWsAux_append_space (joinSpace (w2 :: ws2)) w []]
      have h1 : splitWsAux w [] = [w] := pySplit_single w hw.1 hw.2
      have h2 : splitWsAux (joinSpace (w2 :: ws2)) [] = w2 :: ws2 :=
        ih (fun x hx => hws x (List.mem_cons_of_mem w hx))
      rw [h1, h2]
      rfl

theorem pySplit_joinSpace_flatten :
    ∀ xs : List (List Char), pySplit (joinSpace xs) = (xs.map pySplit).flatten := by
  intro xs
  induction xs with
  | nil => simp [joinSpace, pySplit, splitWsAux]
  | cons x xs ih =>
    cases xs with
    | nil => simp [joinSpace]
    | cons y t =>
      rw [joinSpace_cons x (y :: t) (by simp)]
      show splitWsAux (x ++ ' ' :: joinSpace (y :: t)) [] = _
      rw [splitWsAux_append_space (joinSpace (y :: t)) x []]
      simp only [List.map_cons, List.flatten_cons]
      exact congrArg (pySplit x ++ ·) ih

theorem mem_joinSpace :
    ∀ (ws : List (List Char)) (c : Char), c ∈ joinSpace ws → c = ' ' ∨ ∃ w ∈ ws, c ∈ w := by
  intro ws
  induction ws with
  | nil => intro c hc; simp [joinSpace] at hc
  | cons w ws ih =>
    intro c hc
    cases ws with
    | nil =>
      simp only [joinSpace] at hc
      exact Or.inr ⟨w, List.mem_cons_self w [], hc⟩
    | cons y t =>
      rw [joinSpace_cons w (y :: t) (by simp)] at hc
      rcases List.mem_append.1 hc with h | h
      · exact Or.inr ⟨w, List.mem_cons_self w (y :: t), h⟩
      · rcases List.mem_cons.1 h with h | h
        · exact Or.inl h
        · rcases ih c h with h' | ⟨w', hw', hcw'⟩
          · exact Or.inl h'
          · exact Or.inr ⟨w', List.mem_cons_of_mem w hw', hcw'⟩

theorem joinSpace_append :
    ∀ (A B : List (List Char)), A ≠ [] → B ≠ [] →
      joinSpace (A ++ B) = joinSpace A ++ ' ' :: joinSpace B := by
  intro A
  induction A with
  | nil => intro B hA _; exact absurd rfl hA
  | cons a A ih =>
    intro B hA hB
    cases A with
    | nil =>
      cases B with
      | nil => exact absurd rfl hB
      | cons b t => rfl
    | cons a2 t2 =>
      have h1 : (a2 :: t2 : List (List Char)) ++ B ≠ [] := by simp
      rw [List.cons_append, joinSpace_cons a ((a2 :: t2) ++ B) h1,
        joinSpace_cons a (a2 :: t2) (by simp), ih B (by simp) hB]
      simp

theorem map_fix_of_mem {α : Type} (f : α → α) :
    ∀ l : List α, (∀ a ∈ l, f a = a) → l.map f = l := by
  intro l
  induction l with
  | nil => intro _; rfl
  | cons a l ih =>
    intro h
    simp only [List.map_cons]
    rw [h a (List.mem_cons_self a l), ih (fun x hx => h x (List.mem_cons_of_mem a hx))]

theorem joinSpace_flatten_pySplit :
    ∀ X : List (List Char),
      (∀ x ∈ X, joinSpace (pySplit x) = x ∧ pySplit x ≠ []) →
      joinSpace ((X.map pySplit).flatten) = joinSpace X := by
  intro X
  induction X with
  | nil => intro _; rfl
  | cons x X ih =>
    intro hX
    have hx := hX x (List.mem_cons_self x X)
    cases X with
    | nil => simpa using hx.1
    | cons y t =>
      have hy := hX y (List.mem_cons_of_mem x (List.mem_cons_self y t))
      have hflat : ((y :: t).map pySplit).flatten ≠ [] := by
        simp only [List.map_cons, List.flatten_cons]
        intro hcontra
        exact hy.2 (List.append_eq_nil.1 hcontra).1
      rw [List.map_cons, List.flatten_cons]
      rw [joinSpace_append (pySplit x) (((y :: t).map pySplit).flatten) hx.2 hflat]
      rw [ih (fun z hz => hX z (List.mem_cons_of_mem x hz))]
      rw [joinSpace_cons x (y :: t) (by simp), hx.1]

theorem abbrev_chars :
    ∀ p ∈ ABBREVIATIONS, ∀ c ∈ p.2.data,
      (isAsciiAlnum c || isPySpace c) = true ∧ pyLower c = c := by decide

theorem abbrev_words_not_keys :
    ∀ p ∈ ABBREVIATIONS, ∀ u ∈ pySplit p.2.data,
      ABBREVIATIONS.find? (fun q => q.1.data = u) = none := by decide

theorem abbrev_join :
    ∀ p ∈ ABBREVIATIONS,
      joinSpace (pySplit p.2.data) = p.2.data ∧ pySplit p.2.data ≠ [] := by decide

theorem normalizeL_eq (h : List Char) :
    normalizeL h =
      joinSpace ((pySplit ((h.map pyLower).filter
        (fun c => isAsciiAlnum c || isPySpace c))).map expandAbbrev) := by
  simp only [normalizeL]
  rw [pySplit_joinSpace _ (pySplit_words _)]

theorem normalizeL_idem (h : List Char) : normalizeL (normalizeL h) = normalizeL h := by
  have ht := normalizeL_eq h
  set stripped := (h.map pyLower).filter (fun c => isAsciiAlnum c || isPySpace c) with hstr
  set W := pySplit stripped with hWdef
  set X := W.map expandAbbrev with hXdef
  have hx : ∀ x ∈ X, (joinSpace (pySplit x) = x) ∧ pySplit x ≠ [] ∧
      (∀ u ∈ pySplit x, expandAbbrev u = u) ∧
      (∀ c ∈ x, (isAsciiAlnum c || isPySpace c) = true ∧ pyLower c = c) := by
    intro x hxX
    rcases List.mem_map.1 hxX with ⟨w, hwW, rfl⟩
    have hwprops := pySplit_words stripped w hwW
    rcases hfind : ABBREVIATIONS.find? (fun q => q.1.data = w) with _ | p
    · have hx_eq : expandAbbrev w = w := by unfold expandAbbrev; rw [hfind]
      rw [hx_eq]
      have hsingle := pySplit_single w hwprops.1 hwprops.2
      refine ⟨by rw [hsingle]; rfl, by rw [hsingle]; simp, ?_, ?_⟩
      · intro u hu
        rw [hsingle] at hu
        simp only [List.mem_singleton] at hu
        subst hu
        unfold expandAbbrev
        rw [hfind]
      · intro c hc
        have hcs : c ∈ stripped := pySplit_chars stripped w hwW c hc
        rcases List.mem_filter.1 hcs with ⟨hmem, hprop⟩
        refine ⟨hprop, ?_⟩
        rcases List.mem_map.1 hmem with ⟨c0, _, rfl⟩
        exact pyLower_pyLower c0
    · have hmem := List.mem_of_find?_eq_some hfind
      have hx_eq : expandAbbrev w = p.2.data := by unfold expandAbbrev; rw [hfind]
      rw [hx_eq]
      refine ⟨(abbrev_join p hmem).1, (abbrev_join p hmem).2, ?_, ?_⟩
      · intro u hu
        unfold expandAbbrev
        rw [abbrev_words_not_keys p hmem u hu]
      · intro c hc
        exact abbrev_chars p hmem c hc
  rw [ht]
  have hchars : ∀ c ∈ joinSpace X, (isAsciiAlnum c || isPySpace c) = true ∧ pyLower c = c := by
    intro c hc
    rcases mem_joinSpace X c hc with rfl | ⟨x, hxX, hcx⟩
    · exact ⟨by decide, by decide⟩
    · exact (hx x hxX).2.2.2 c hcx
  show normalizeL (joinSpace X) = joinSpace X
  simp only [normalizeL]
  have hmap : (joinSpace X).map pyLower = joinSpace X :=
    map_fix_of_mem pyLower (joinSpace X) (fun c hc => (hchars c hc).2)
  rw [hmap]
  have hfil : (joinSpace X).filter (fun c => isAsciiAlnum c || isPySpace c) = joinSpace X :=
    List.filter_eq_self.2 (fun c hc => (hchars c hc).1)
  rw [hfil]
  rw [pySplit_joinSpace (pySplit (joinSpace X)) (pySplit_words (joinSpace X))]
  have hfix : (pySplit (joinSpace X)).map expandAbbrev = pySplit (joinSpace X) := by
    refine map_fix_of_mem expandAbbrev _ ?_
    intro u hu
    rw [pySplit_joinSpace_flatten X] at hu
    rcases List.mem_flatten.1 hu with ⟨l, hl, hul⟩
    rcases List.mem_map.1 hl with ⟨x, hxX, rfl⟩
    exact (hx x hxX).2.2.1 u hul
  rw [hfix, pySplit_joinSpace_flatten X]
  exact joinSpace_flatten_pySplit X (fun x hxX => ⟨(hx x hxX).1, (hx x hxX).2.1⟩)

/-- C9: normalization is idempotent — `normalize_header (normalize_header x)`
equals `normalize_header x` for every header string — and the abbreviation
table is closed: no expansion splits into a word that is again an
abbreviation key, and every expansion character is a lowercase letter, a
digit, or a space. -/
theorem C9_normalize_idempotent :
    (∀ x : String, normalize_header (normalize_header x) = normalize_header x) ∧
    (∀ p ∈ ABBREVIATIONS,
      (∀ u ∈ pySplit p.2.data, ABBREVIATIONS.find? (fun q => q.1.data = u) = none) ∧
      ∀ c ∈ p.2.data, (c.isLower || c.isDigit || c = ' ') = true) := by
  constructor
  · intro x
    exact congrArg String.mk (normalizeL_idem x.data)
  · decide

/-- C9 witness: the idempotence theorem applied to a concrete header, and the
table-closure clause applied to the concrete `dob` entry. -/
theorem C9_witness :
    normalize_header (normalize_header "Cust  Addr!") = normalize_header "Cust  Addr!" ∧
    ∀ u ∈ pySplit ("date of birth".data),
      ABBREVIATIONS.find? (fun q => q.1.data = u) = none :=
  ⟨C9_normalize_idempotent.1 "Cust  Addr!",
   fun u hu => (C9_normalize_idempotent.2 ("dob", "date of birth") (by decide)).1 u hu⟩

/-! ### Facts about the similarity scorer (claim C3) -/

theorem lcsWith_le (f : List Char → ℕ) (a : Char) (n : ℕ)
    (hf : ∀ l, f l ≤ min n l.length) :
    ∀ l2, lcsWith f a l2 ≤ min (n + 1) l2.length := by
  intro l2
  induction l2 with
  | nil => simp [lcsWith]
  | cons b bs ih =>
    by_cases hab : a = b
    · have h1 := hf bs
      simp only [lcsWith, if_pos hab, List.length_cons]
      omega
    · have h2 := hf (b :: bs)
      simp only [lcsWith, if_neg hab, List.length_cons] at ih h2 ⊢
      omega

theorem lcsLen_le : ∀ l1 l2 : List Char, lcsLen l1 l2 ≤ min l1.length l2.length := by
  intro l1
  induction l1 with
  | nil => intro l2; simp [lcsLen]
  | cons a as ih =>
    intro l2
    have h := lcsWith_le (lcsLen as) a as.length ih l2
    simpa [lcsLen] using h

theorem indelDist_le (s1 s2 : List Char) : indelDist s1 s2 ≤ s1.length + s2.length :=
  Nat.sub_le _ _

theorem normRatio_nonneg (dist total : ℕ) (h : dist ≤ total) : 0 ≤ normRatio dist total := by
  unfold normRatio
  split
  · norm_num
  · rename_i ht
    have htpos : (0 : ℚ) < total := by
      exact_mod_cast Nat.pos_of_ne_zero ht
    have hd : (dist : ℚ) ≤ (total : ℚ) := by exact_mod_cast h
    have hmain : 100 * (dist : ℚ) / total ≤ 100 := by
      rw [div_le_iff₀ htpos]
      nlinarith
    linarith

theorem normRatio_le_100 (dist total : ℕ) : normRatio dist total ≤ 100 := by
  unfold normRatio
  split
  · norm_num
  · rename_i ht
    have htpos : (0 : ℚ) < total := by
      exact_mod_cast Nat.pos_of_ne_zero ht
    have h0 : 0 ≤ 100 * (dist : ℚ) / total := by positivity
    linarith

theorem fuzzRatio_bounds (s1 s2 : List Char) :
    0 ≤ fuzzRatio s1 s2 ∧ fuzzRatio s1 s2 ≤ 100 :=
  ⟨normRatio_nonneg _ _ (indelDist_le s1 s2), normRatio_le_100 _ _⟩

theorem qmax_le {a b c : ℚ} (ha : a ≤ c) (hb : b ≤ c) : qmax a b ≤ c := by
  unfold qmax
  split <;> assumption

theorem qmax_nonneg {a b : ℚ} (ha : 0 ≤ a) (hb : 0 ≤ b) : 0 ≤ qmax a b := by
  unfold qmax
  split <;> assumption

theorem token_sort_ratio_bounds (s1 s2 : List Char) :
    0 ≤ token_sort_ratio s1 s2 ∧ token_sort_ratio s1 s2 ≤ 100 :=
  fuzzRatio_bounds _ _

theorem token_set_ratio_nonneg (s1 s2 : List Char) : 0 ≤ token_set_ratio s1 s2 := by
  simp only [token_set_ratio]
  split
  · norm_num
  · split
    · norm_num
    · refine qmax_nonneg (normRatio_nonneg _ _ ?_)
        (qmax_nonneg (normRatio_nonneg _ _ ?_) (normRatio_nonneg _ _ ?_))
      · have h := indelDist_le
          (joinSpace (sortWords (((pySplit s1).dedup).filter (· ∉ (pySplit s2).dedup))))
          (joinSpace (sortWords (((pySplit s2).dedup).filter (· ∉ (pySplit s1).dedup))))
        omega
      · omega
      · omega

theorem token_set_ratio_le_100 (s1 s2 : List Char) : token_set_ratio s1 s2 ≤ 100 := by
  simp only [token_set_ratio]
  split
  · norm_num
  · split
    · norm_num
    · exact qmax_le (normRatio_le_100 _ _) (qmax_le (normRatio_le_100 _ _) (normRatio_le_100 _ _))

theorem token_set_ratio_bounds (s1 s2 : List Char) :
    0 ≤ token_set_ratio s1 s2 ∧ token_set_ratio s1 s2 ≤ 100 :=
  ⟨token_set_ratio_nonneg s1 s2, token_set_ratio_le_100 s1 s2⟩

theorem check_synonym_match_cases (t r : List Char) :
    check_synonym_match t r = 0 ∨ check_synonym_match t r = 95 := by
  unfold check_synonym_match
  split
  · exact Or.inr rfl
  · exact Or.inl rfl

theorem calculate_match_score_eq (t r : String) :
    calculate_match_score t r =
      if normalizeL t.data = normalizeL r.data then 100
      else if 0 < check_synonym_match (normalizeL t.data) (normalizeL r.data) then
        check_synonym_match (normalizeL t.data) (normalizeL r.data)
      else if normWords t = [] ∨ normWords r = [] then 0
      else if isSubsetSmaller t r then 95
      else if ((normWords t).filter (· ∈ normWords r)) ≠ [] ∧ 1/2 < wordOverlapQ t r then
        70 + wordOverlapQ t r * 20
      else if 70 ≤ tokenAvg t r then tokenAvg t r else 0 := rfl

theorem wordOverlapQ_nonneg (t r : String) : 0 ≤ wordOverlapQ t r := by
  unfold wordOverlapQ
  positivity

theorem wordOverlapQ_le_one (t r : String) (ht : normWords t ≠ []) : wordOverlapQ t r ≤ 1 := by
  unfold wordOverlapQ
  have hM : (0 : ℚ) < ((max (normWords t).length (normWords r).length : ℕ) : ℚ) := by
    have h1 : 0 < (normWords t).length := List.length_pos.2 ht
    have : 0 < max (normWords t).length (normWords r).length := lt_of_lt_of_le h1 (le_max_left _ _)
    exact_mod_cast this
  rw [div_le_one hM]
  have hlen : ((normWords t).filter (· ∈ normWords r)).length ≤
      max (normWords t).length (normWords r).length :=
    le_trans (List.length_filter_le _ _) (le_max_left _ _)
  exact_mod_cast hlen

theorem calculate_match_score_bounds (t r : String) :
    0 ≤ calculate_match_score t r ∧ calculate_match_score t r ≤ 100 := by
  rw [calculate_match_score_eq]
  split
  · norm_num
  split
  · rcases check_synonym_match_cases (normalizeL t.data) (normalizeL r.data) with h | h <;>
      rw [h] <;> norm_num
  split
  · norm_num
  split
  · norm_num
  split
  · rename_i hwords _ hcommon
    have hne : normWords t ≠ [] := by
      rcases not_or.1 hwords with ⟨h1, _⟩
      exact h1
    have h1 := wordOverlapQ_nonneg t r
    have h2 := wordOverlapQ_le_one t r hne
    constructor <;> nlinarith
  split
  · rename_i havg
    have h1 := token_sort_ratio_bounds (normalizeL t.data) (normalizeL r.data)
    have h2 := token_set_ratio_bounds (normalizeL t.data) (normalizeL r.data)
    unfold tokenAvg
    constructor <;> [linarith [h1.1, h2.1]; linarith [h1.2, h2.2]]
  · norm_num

/-- C3: the match score of two column-name strings lies in 0..100 and follows
the priority cascade: equal normalized forms score 100; else a joint synonym
group scores 95; else an empty word set scores 0; else containment of the
smaller word set in the larger scores 95; else a word-overlap ratio strictly
above one half scores `70 + overlap * 20` (so an exactly-0.5 overlap does not
fire this rule); otherwise the average of the token-sort and token-set ratios
is returned when at least 70, else 0. -/
theorem C3_match_score_cascade (t r : String) :
    (0 ≤ calculate_match_score t r ∧ calculate_match_score t r ≤ 100) ∧
    (normalizeL t.data = normalizeL r.data → calculate_match_score t r = 100) ∧
    (normalizeL t.data ≠ normalizeL r.data →
      check_synonym_match (normalizeL t.data) (normalizeL r.data) = 95 →
      calculate_match_score t r = 95) ∧
    (normalizeL t.data ≠ normalizeL r.data →
      check_synonym_match (normalizeL t.data) (normalizeL r.data) = 0 →
      (normWords t = [] ∨ normWords r = []) → calculate_match_score t r = 0) ∧
    (normalizeL t.data ≠ normalizeL r.data →
      check_synonym_match (normalizeL t.data) (normalizeL r.data) = 0 →
      normWords t ≠ [] → normWords r ≠ [] → isSubsetSmaller t r = true →
      calculate_match_score t r = 95) ∧
    (normalizeL t.data ≠ normalizeL r.data →
      check_synonym_match (normalizeL t.data) (normalizeL r.data) = 0 →
      normWords t ≠ [] → normWords r ≠ [] → isSubsetSmaller t r = false →
      1/2 < wordOverlapQ t r →
      calculate_match_score t r = 70 + wordOverlapQ t r * 20) ∧
    (normalizeL t.data ≠ normalizeL r.data →
      check_synonym_match (normalizeL t.data) (normalizeL r.data) = 0 →
      normWords t ≠ [] → normWords r ≠ [] → isSubsetSmaller t r = false →
      wordOverlapQ t r ≤ 1/2 →
      calculate_match_score t r = if 70 ≤ tokenAvg t r then tokenAvg t r else 0) := by
  refine ⟨calculate_match_score_bounds t r, ?_, ?_, ?_, ?_, ?_, ?_⟩
  · intro h
    rw [calculate_match_score_eq, if_pos h]
  · intro h1 h2
    rw [calculate_match_score_eq, if_neg h1, if_pos (by rw [h2]; norm_num), h2]
  · intro h1 h2 h3
    rw [calculate_match_score_eq, if_neg h1, if_neg (by rw [h2]; norm_num), if_pos h3]
  · intro h1 h2 h3 h4 h5
    rw [calculate_match_score_eq, if_neg h1, if_neg (by rw [h2]; norm_num),
      if_neg (by simp [h3, h4]), if_pos h5]
  · intro h1 h2 h3 h4 h5 h6
    have hcommon : ((normWords t).filter (· ∈ normWords r)) ≠ [] := by
      intro hc
      rw [wordOverlapQ, hc] at h6
      simp at h6
      linarith
    rw [calculate_match_score_eq, if_neg h1, if_neg (by rw [h2]; norm_num),
      if_neg (by simp [h3, h4]), if_neg (by simp [h5]), if_pos ⟨hcommon, h6⟩]
  · intro h1 h2 h3 h4 h5 h6
    rw [calculate_match_score_eq, if_neg h1, if_neg (by rw [h2]; norm_num),
      if_neg (by simp [h3, h4]), if_neg (by simp [h5]),
      if_neg (by intro hc; exact absurd hc.2 (not_lt.2 h6))]

/-- C3 witness: the cascade theorem applied to concrete string pairs hitting
the exact-match, synonym, and fallback branches. -/
theorem C3_witness :
    calculate_match_score "Email" "E-Mail" = 100 ∧
    calculate_match_score "mail" "email" = 95 ∧
    calculate_match_score "ab cd" "ab ef" =
      (if 70 ≤ tokenAvg "ab cd" "ab ef" then tokenAvg "ab cd" "ab ef" else 0) :=
  ⟨(C3_match_score_cascade "Email" "E-Mail").2.1 (by decide),
   (C3_match_score_cascade "mail" "email").2.2.1 (by decide) (by decide),
   (C3_match_score_cascade "ab cd" "ab ef").2.2.2.2.2.2 (by decide) (by decide)
     (by decide) (by decide) (by decide) (by decide)⟩

/-! ### Facts about the assignment solver (claims C1, C2, C4) -/

theorem matchLists_sound :
    ∀ (k : ℕ) (avail : List ℕ), ∀ l ∈ matchLists k avail,
      l.length = k ∧ (∀ j ∈ l.filterMap id, j ∈ avail) ∧
      (avail.Nodup → (l.filterMap id).Nodup) := by
  intro k
  induction k with
  | zero =>
    intro avail l hl
    simp [matchLists] at hl
    subst hl
    simp
  | succ n ih =>
    intro avail l hl
    simp only [matchLists, List.mem_append, List.mem_map, List.mem_flatten] at hl
    rcases hl with ⟨l', hl', rfl⟩ | ⟨ls, hls, hmem⟩
    · rcases ih avail l' hl' with ⟨h1, h2, h3⟩
      exact ⟨by simp [h1], by simpa using h2, by simpa using h3⟩
    · rcases hls with ⟨c, hc, rfl⟩
      rcases List.mem_map.1 hmem with ⟨l', hl', rfl⟩
      rcases ih (avail.erase c) l' hl' with ⟨h1, h2, h3⟩
      refine ⟨by simp [h1], ?_, ?_⟩
      · intro j hj
        simp only [List.filterMap_cons, Option.some.injEq, id] at hj
        rcases List.mem_cons.1 hj with rfl | hj
        · exact hc
        · exact List.mem_of_mem_erase (h2 j hj)
      · intro hnd
        simp only [List.filterMap_cons, id]
        refine List.Nodup.cons ?_ (h3 (hnd.erase c))
        intro hcmem
        exact (hnd.not_mem_erase) (h2 c hcmem)

theorem matchLists_complete :
    ∀ (l : List (Option ℕ)) (avail : List ℕ),
      (∀ j ∈ l.filterMap id, j ∈ avail) → (l.filterMap id).Nodup →
      l ∈ matchLists l.length avail := by
  intro l
  induction l with
  | nil => intro avail _ _; simp [matchLists]
  | cons o t ih =>
    intro avail hsub hnd
    cases o with
    | none =>
      have ht := ih avail (by simpa using hsub) (by simpa using hnd)
      simp only [List.length_cons, matchLists, List.mem_append]
      exact Or.inl (List.mem_map.2 ⟨t, ht, rfl⟩)
    | some c =>
      simp only [List.filterMap_cons, id] at hsub hnd
      have hc : c ∈ avail := hsub c (List.mem_cons_self _ _)
      have hcnot : c ∉ t.filterMap id := (List.nodup_cons.1 hnd).1
      have ht : t ∈ matchLists t.length (avail.erase c) := by
        refine ih (avail.erase c) ?_ (List.nodup_cons.1 hnd).2
        intro j hj
        refine (List.mem_erase_of_ne ?_).2 (hsub j (List.mem_cons_of_mem _ hj))
        intro hjc
        exact hcnot (hjc ▸ hj)
      simp only [List.length_cons, matchLists, List.mem_append]
      refine Or.inr (List.mem_flatten.2 ⟨(matchLists t.length (avail.erase c)).map (some c :: ·), ?_, ?_⟩)
      · exact List.mem_map.2 ⟨c, hc, rfl⟩
      · exact List.mem_map.2 ⟨t, ht, rfl⟩

theorem foldl_min_mem {α : Type} (f : α → ℚ) :
    ∀ (xs : List α) (x : α),
      (xs.foldl (fun b a => if f a < f b then a else b) x) ∈ x :: xs := by
  intro xs
  induction xs with
  | nil => intro x; simp
  | cons a xs ih =>
    intro x
    simp only [List.foldl_cons]
    by_cases hfa : f a < f x
    · rw [if_pos hfa]
      rcases List.mem_cons.1 (ih a) with h' | h'
      · rw [h']
        exact List.mem_cons_of_mem x (List.mem_cons_self a xs)
      · exact List.mem_cons_of_mem x (List.mem_cons_of_mem a h')
    · rw [if_neg hfa]
      rcases List.mem_cons.1 (ih x) with h' | h'
      · rw [h']
        exact List.mem_cons_self x (a :: xs)
      · exact List.mem_cons_of_mem x (List.mem_cons_of_mem a h')

theorem foldl_min_le {α : Type} (f : α → ℚ) :
    ∀ (xs : List α) (x y : α), y ∈ x :: xs →
      f (xs.foldl (fun b a => if f a < f b then a else b) x) ≤ f y := by
  intro xs
  induction xs with
  | nil =>
    intro x y hy
    rcases List.mem_cons.1 hy with h | h
    · subst h; simp
    · simp at h
  | cons a xs ih =>
    intro x y hy
    simp only [List.foldl_cons]
    rcases List.mem_cons.1 hy with h | hy'
    · rw [h]
      by_cases hfa : f a < f x
      · rw [if_pos hfa]
        exact le_trans (ih a a (List.mem_cons_self _ _)) (le_of_lt hfa)
      · rw [if_neg hfa]
        exact ih x x (List.mem_cons_self _ _)
    · rcases List.mem_cons.1 hy' with h | hy''
      · rw [h]
        by_cases hfa : f a < f x
        · rw [if_pos hfa]
          exact ih a a (List.mem_cons_self _ _)
        · rw [if_neg hfa]
          exact le_trans (ih x x (List.mem_cons_self _ _)) (le_of_not_lt hfa)
      · exact ih (if f a < f x then a else x) y (List.mem_cons_of_mem _ hy'')

theorem argminQ_spec {α : Type} (f : α → ℚ) (xs : List α) (hne : xs ≠ []) :
    ∃ x, argminQ f xs = some x ∧ x ∈ xs ∧ ∀ y ∈ xs, f x ≤ f y := by
  cases xs with
  | nil => exact absurd rfl hne
  | cons a t =>
    exact ⟨_, rfl, foldl_min_mem f t a, fun y hy => foldl_min_le f t a y hy⟩

theorem canonicalFull_somes (n m : ℕ) :
    (canonicalFull n m).filterMap id = List.range (min n m) := by
  unfold canonicalFull
  rw [List.filterMap_append]
  have h1 : (List.map some (List.range (min n m))).filterMap id = List.range (min n m) := by
    simp
  have h2 : (List.replicate (n - min n m) (none : Option ℕ)).filterMap id = [] := by
    simp
  rw [h1, h2, List.append_nil]

theorem canonicalFull_isMatch (n m : ℕ) : isMatchList n m (canonicalFull n m) := by
  refine ⟨?_, ?_, ?_⟩
  · unfold canonicalFull
    simp
  · rw [canonicalFull_somes]
    intro j hj
    have := List.mem_range.1 hj
    omega
  · rw [canonicalFull_somes]
    exact List.nodup_range _

theorem canonicalFull_count (n m : ℕ) : somesCount (canonicalFull n m) = min n m := by
  unfold somesCount
  rw [canonicalFull_somes]
  simp

theorem isMatchList_mem_fulls {n m : ℕ} {l : List (Option ℕ)}
    (h : isMatchList n m l) (hc : somesCount l = min n m) :
    l ∈ (matchLists n (List.range m)).filter (fun l => somesCount l = min n m) := by
  rcases h with ⟨hlen, hbound, hnd⟩
  refine List.mem_filter.2 ⟨?_, by simp [hc]⟩
  have := matchLists_complete l (List.range m)
    (fun j hj => List.mem_range.2 (hbound j hj)) hnd
  rw [hlen] at this
  exact this

theorem fulls_ne_nil (n m : ℕ) :
    (matchLists n (List.range m)).filter (fun l => somesCount l = min n m) ≠ [] := by
  intro h
  have hmem := isMatchList_mem_fulls (canonicalFull_isMatch n m) (canonicalFull_count n m)
  rw [h] at hmem
  simp at hmem

theorem linear_sum_assignment_spec (cost : ℕ → ℕ → ℚ) (n m : ℕ) :
    isMatchList n m (linear_sum_assignment cost n m) ∧
    somesCount (linear_sum_assignment cost n m) = min n m ∧
    ∀ l, isMatchList n m l → somesCount l = min n m →
      assignSum cost (linear_sum_assignment cost n m) ≤ assignSum cost l := by
  rcases argminQ_spec (assignSum cost)
      ((matchLists n (List.range m)).filter (fun l => somesCount l = min n m))
      (fulls_ne_nil n m) with ⟨x, hx, hmem, hle⟩
  have hres : linear_sum_assignment cost n m = x := by
    simp only [linear_sum_assignment]
    rw [hx]
  rcases List.mem_filter.1 hmem with ⟨hml, hcount⟩
  rcases matchLists_sound n (List.range m) x hml with ⟨h1, h2, h3⟩
  rw [hres]
  refine ⟨⟨h1, fun j hj => List.mem_range.1 (h2 j hj), h3 (List.nodup_range m)⟩,
    by simpa using hcount, ?_⟩
  intro l hl hcl
  exact hle l (isMatchList_mem_fulls hl hcl)

theorem somesCount_le_length (l : List (Option ℕ)) : somesCount l ≤ l.length :=
  List.length_filterMap_le id l

theorem somesCount_le_m {m : ℕ} {l : List (Option ℕ)} (hb : ∀ j ∈ l.filterMap id, j < m)
    (hnd : (l.filterMap id).Nodup) : somesCount l ≤ m := by
  have h1 : (l.filterMap id).toFinset.card = (l.filterMap id).length :=
    List.toFinset_card_of_nodup hnd
  have h2 : (l.filterMap id).toFinset ⊆ Finset.range m := by
    intro j hj
    rw [List.mem_toFinset] at hj
    exact Finset.mem_range.2 (hb j hj)
  have h3 := Finset.card_le_card h2
  rw [h1, Finset.card_range] at h3
  exact h3

theorem isMatchList_count_le {n m : ℕ} {l : List (Option ℕ)} (h : isMatchList n m l) :
    somesCount l ≤ min n m := by
  rcases h with ⟨hlen, hb, hnd⟩
  exact le_min (hlen ▸ somesCount_le_length l) (somesCount_le_m hb hnd)

theorem assignSumFrom_append (w : ℕ → ℕ → ℚ) :
    ∀ (a b : List (Option ℕ)) (i0 : ℕ),
      assignSumFrom w i0 (a ++ b) = assignSumFrom w i0 a + assignSumFrom w (i0 + a.length) b := by
  intro a
  induction a with
  | nil => intro b i0; simp [assignSumFrom]
  | cons o t ih =>
    intro b i0
    have h : i0 + 1 + t.length = i0 + (t.length + 1) := by omega
    cases o with
    | none =>
      show assignSumFrom w (i0 + 1) (t ++ b) =
        assignSumFrom w (i0 + 1) t + assignSumFrom w (i0 + (t.length + 1)) b
      rw [ih, h]
    | some j =>
      show w i0 j + assignSumFrom w (i0 + 1) (t ++ b) =
        w i0 j + assignSumFrom w (i0 + 1) t + assignSumFrom w (i0 + (t.length + 1)) b
      rw [ih, h, add_assoc]

theorem assignSumFrom_complement (w1 w2 : ℕ → ℕ → ℚ) (h : ∀ i j, w1 i j + w2 i j = 100) :
    ∀ (l : List (Option ℕ)) (i0 : ℕ),
      assignSumFrom w1 i0 l + assignSumFrom w2 i0 l = 100 * somesCount l := by
  intro l
  induction l with
  | nil => intro i0; simp [assignSumFrom, somesCount]
  | cons o t ih =>
    intro i0
    cases o with
    | none =>
      simpa [assignSumFrom, somesCount] using ih (i0 + 1)
    | some j =>
      have hh := ih (i0 + 1)
      have hw := h i0 j
      simp only [assignSumFrom, somesCount, List.filterMap_cons, id, List.length_cons] at hh ⊢
      push_cast
      linarith

theorem exists_none_split :
    ∀ (l : List (Option ℕ)), somesCount l < l.length → ∃ l1 l2, l = l1 ++ none :: l2 := by
  intro l
  induction l with
  | nil => intro h; simp [somesCount] at h
  | cons o t ih =>
    intro h
    cases o with
    | none => exact ⟨[], t, rfl⟩
    | some j =>
      have h' : somesCount t < t.length := by
        simp only [somesCount, List.filterMap_cons, id, List.length_cons] at h ⊢
        omega
      rcases ih h' with ⟨l1, l2, rfl⟩
      exact ⟨some j :: l1, l2, rfl⟩

theorem exists_unused_col {m : ℕ} {l : List (Option ℕ)}
    (hnd : (l.filterMap id).Nodup) (hcount : somesCount l < m) :
    ∃ j, j < m ∧ j ∉ l.filterMap id := by
  by_contra hcon
  push_neg at hcon
  have hsub : Finset.range m ⊆ (l.filterMap id).toFinset := by
    intro j hj
    rw [List.mem_toFinset]
    exact hcon j (Finset.mem_range.1 hj)
  have h3 := Finset.card_le_card hsub
  rw [Finset.card_range, List.toFinset_card_of_nodup hnd] at h3
  unfold somesCount at hcount
  omega

theorem matchList_extend {n m : ℕ} {l : List (Option ℕ)} (w : ℕ → ℕ → ℚ)
    (hw : ∀ i j, 0 ≤ w i j) (h : isMatchList n m l) (hc : somesCount l < min n m) :
    ∃ l', isMatchList n m l' ∧ somesCount l' = somesCount l + 1 ∧
      assignSum w l ≤ assignSum w l' := by
  rcases h with ⟨hlen, hb, hnd⟩
  have hclen : somesCount l < l.length := by
    rw [hlen]
    omega
  rcases exists_none_split l hclen with ⟨l1, l2, rfl⟩
  have hcm : somesCount (l1 ++ none :: l2) < m := by omega
  rcases exists_unused_col hnd hcm with ⟨j, hjm, hjnot⟩
  have h_old : (l1 ++ none :: l2).filterMap id = l1.filterMap id ++ l2.filterMap id := by simp
  have h_new : (l1 ++ some j :: l2).filterMap id = l1.filterMap id ++ j :: l2.filterMap id := by
    simp
  rw [h_old] at hnd hjnot
  refine ⟨l1 ++ some j :: l2, ⟨?_, ?_, ?_⟩, ?_, ?_⟩
  · rw [← hlen]
    simp
  · rw [h_new]
    intro j' hj'
    rcases List.mem_append.1 hj' with hj' | hj'
    · exact hb j' (by rw [h_old]; exact List.mem_append_left _ hj')
    · rcases List.mem_cons.1 hj' with rfl | hj'
      · exact hjm
      · exact hb j' (by rw [h_old]; exact List.mem_append_right _ hj')
  · rw [h_new]
    rw [List.nodup_middle]
    exact List.nodup_cons.2 ⟨hjnot, hnd⟩
  · simp only [somesCount, h_new, h_old, List.length_append, List.length_cons]
    omega
  · unfold assignSum
    rw [assignSumFrom_append, assignSumFrom_append]
    simp only [assignSumFrom]
    have := hw (0 + l1.length) j
    linarith

theorem matchList_to_full {n m : ℕ} (w : ℕ → ℕ → ℚ) (hw : ∀ i j, 0 ≤ w i j) :
    ∀ (d : ℕ) (l : List (Option ℕ)), isMatchList n m l → min n m - somesCount l ≤ d →
      ∃ l', isMatchList n m l' ∧ somesCount l' = min n m ∧ assignSum w l ≤ assignSum w l' := by
  intro d
  induction d with
  | zero =>
    intro l h hd
    have hle := isMatchList_count_le h
    have heq : somesCount l = min n m := by omega
    exact ⟨l, h, heq, le_refl _⟩
  | succ d ih =>
    intro l h hd
    by_cases hc : somesCount l < min n m
    · rcases matchList_extend w hw h hc with ⟨l', h', hc', hs'⟩
      rcases ih l' h' (by omega) with ⟨l'', h'', hc'', hs''⟩
      exact ⟨l'', h'', hc'', le_trans hs' hs''⟩
    · have hle := isMatchList_count_le h
      have heq : somesCount l = min n m := by omega
      exact ⟨l, h, heq, le_refl _⟩

theorem mem_dictInsert {α : Type} :
    ∀ (m : List (String × α)) (k : String) (v : α) (e : String × α),
      e ∈ dictInsert m k v → e = (k, v) ∨ e ∈ m := by
  intro m
  induction m with
  | nil =>
    intro k v e he
    simp [dictInsert] at he
    exact Or.inl he
  | cons p t ih =>
    intro k v e he
    by_cases hp : p.1 = k
    · simp only [dictInsert, if_pos hp] at he
      rcases List.mem_cons.1 he with h | h
      · exact Or.inl h
      · exact Or.inr (List.mem_cons_of_mem p h)
    · simp only [dictInsert, if_neg hp] at he
      rcases List.mem_cons.1 he with h | h
      · exact Or.inr (h ▸ List.mem_cons_self p t)
      · rcases ih k v e h with h' | h'
        · exact Or.inl h'
        · exact Or.inr (List.mem_cons_of_mem p h')

theorem lookupA_cons_pos {α : Type} (p : String × α) (t : List (String × α)) (k : String)
    (h : p.1 = k) : lookupA (p :: t) k = some p.2 := by
  simp [lookupA, List.find?_cons_of_pos, h]

theorem lookupA_cons_neg {α : Type} (p : String × α) (t : List (String × α)) (k : String)
    (h : ¬ p.1 = k) : lookupA (p :: t) k = lookupA t k := by
  simp only [lookupA]
  rw [List.find?_cons_of_neg]
  simp [h]

theorem lookupA_dictInsert {α : Type} :
    ∀ (m : List (String × α)) (k : String) (v : α) (k' : String),
      lookupA (dictInsert m k v) k' = if k' = k then some v else lookupA m k' := by
  intro m
  induction m with
  | nil =>
    intro k v k'
    by_cases h : k' = k
    · rw [if_pos h]
      subst h
      exact lookupA_cons_pos (k', v) [] k' rfl
    · rw [if_neg h]
      show lookupA [(k, v)] k' = lookupA [] k'
      rw [lookupA_cons_neg (k, v) [] k' (fun hc => h hc.symm)]
  | cons p t ih =>
    intro k v k'
    by_cases hp : p.1 = k
    · simp only [dictInsert, if_pos hp]
      by_cases h : k' = k
      · rw [if_pos h]
        exact lookupA_cons_pos (k, v) t k' h.symm
      · rw [if_neg h]
        rw [lookupA_cons_neg (k, v) t k' (fun hc => h hc.symm),
          lookupA_cons_neg p t k' (fun hc => h (hp ▸ hc).symm)]
    · simp only [dictInsert, if_neg hp]
      by_cases hk' : p.1 = k'
      · have h2 : ¬ k' = k := fun hc => hp (hk'.trans hc)
        rw [if_neg h2, lookupA_cons_pos p _ k' hk', lookupA_cons_pos p t k' hk']
      · rw [lookupA_cons_neg p _ k' hk', lookupA_cons_neg p t k' hk', ih]

theorem fold_const_isSome :
    ∀ (cols : List String) (acc : Mapping) (t : String),
      t ∈ cols ∨ (lookupA acc t).isSome →
      (lookupA (cols.foldl (fun a c => dictInsert a c (none, 0)) acc) t).isSome := by
  intro cols
  induction cols with
  | nil =>
    intro acc t h
    rcases h with h | h
    · simp at h
    · exact h
  | cons c cols ih =>
    intro acc t h
    simp only [List.foldl_cons]
    apply ih
    rcases h with h | h
    · rcases List.mem_cons.1 h with rfl | h'
      · right
        rw [lookupA_dictInsert]
        simp
      · exact Or.inl h'
    · right
      rw [lookupA_dictInsert]
      split <;> simp [h]

theorem fold_const_val :
    ∀ (cols : List String) (acc : Mapping) (t : String) (v : Option String × ℚ),
      lookupA (cols.foldl (fun a c => dictInsert a c (none, 0)) acc) t = some v →
      v = (none, 0) ∨ lookupA acc t = some v := by
  intro cols
  induction cols with
  | nil =>
    intro acc t v h
    exact Or.inr h
  | cons c cols ih =>
    intro acc t v h
    simp only [List.foldl_cons] at h
    rcases ih _ t v h with h' | h'
    · exact Or.inl h'
    · rw [lookupA_dictInsert] at h'
      by_cases hc : t = c
      · rw [if_pos hc] at h'
        exact Or.inl (Option.some.inj h').symm
      · rw [if_neg hc] at h'
        exact Or.inr h'

/-- C2: the empty-target case yields an empty Mapping; an empty source list
maps every target column to `(None, 0.0)`; and the internal assignment is a
well-formed one-to-one assignment of maximal size `min |target| |source|`
(rectangular inputs leave the excess side unassigned) whose total match score
is at least that of every one-to-one partial assignment. -/
theorem C2_optimal_assignment (raw_columns template_columns : List String) :
    (template_columns = [] → fuzzy_match_headers 70 raw_columns template_columns = []) ∧
    (raw_columns = [] → ∀ t ∈ template_columns,
      lookupA (fuzzy_match_headers 70 raw_columns template_columns) t = some (none, 0)) ∧
    isMatchList template_columns.length raw_columns.length
      (internalAssignment raw_columns template_columns) ∧
    somesCount (internalAssignment raw_columns template_columns) =
      min template_columns.length raw_columns.length ∧
    ∀ l, isMatchList template_columns.length raw_columns.length l →
      assignSum (fun i j => calculate_match_score (template_columns.getD i "")
          (raw_columns.getD j "")) l ≤
        assignSum (fun i j => calculate_match_score (template_columns.getD i "")
          (raw_columns.getD j "")) (internalAssignment raw_columns template_columns) := by
  have hspec : isMatchList template_columns.length raw_columns.length
        (internalAssignment raw_columns template_columns) ∧
      somesCount (internalAssignment raw_columns template_columns) =
        min template_columns.length raw_columns.length ∧
      ∀ l, isMatchList template_columns.length raw_columns.length l →
        somesCount l = min template_columns.length raw_columns.length →
        assignSum (fmhCost raw_columns template_columns)
            (internalAssignment raw_columns template_columns) ≤
          assignSum (fmhCost raw_columns template_columns) l :=
    linear_sum_assignment_spec (fmhCost raw_columns template_columns)
      template_columns.length raw_columns.length
  refine ⟨?_, ?_, hspec.1, hspec.2.1, ?_⟩
  · intro h
    subst h
    simp [fuzzy_match_headers]
  · intro h t ht
    subst h
    have hcond : ([] : List String) = [] ∨ template_columns = [] := Or.inl rfl
    have hform : fuzzy_match_headers 70 [] template_columns =
        template_columns.foldl (fun acc c => dictInsert acc c (none, 0)) [] := by
      simp [fuzzy_match_headers]
    rw [hform]
    have hs := fold_const_isSome template_columns [] t (Or.inl ht)
    rcases Option.isSome_iff_exists.1 hs with ⟨v, hv⟩
    rcases fold_const_val template_columns [] t v hv with h' | h'
    · rw [hv, h']
    · simp [lookupA] at h'
  · intro l hl
    have hsum : ∀ i j, fmhCost raw_columns template_columns i j +
        calculate_match_score (template_columns.getD i "") (raw_columns.getD j "") = 100 := by
      intro i j
      simp [fmhCost]
    have hnn : ∀ i j, 0 ≤ calculate_match_score (template_columns.getD i "")
        (raw_columns.getD j "") := fun i j => (calculate_match_score_bounds _ _).1
    rcases matchList_to_full _ hnn (min template_columns.length raw_columns.length) l hl
      (by omega) with ⟨l', hl', hc', hs'⟩
    have hcostle := hspec.2.2 l' hl' hc'
    have h1 := assignSumFrom_complement _ _ hsum (internalAssignment raw_columns template_columns) 0
    have h2 := assignSumFrom_complement _ _ hsum l' 0
    rw [hspec.2.1] at h1
    rw [hc'] at h2
    unfold assignSum at hcostle hs' ⊢
    linarith

/-- C2 witness: the theorem applied to the singleton inputs, discharging the
empty-source hypothesis, the membership hypothesis, and a concrete
one-to-one assignment. -/
theorem C2_witness :
    lookupA (fuzzy_match_headers 70 [] ["name"]) "name" = some (none, 0) ∧
    assignSum (fun i j => calculate_match_score ((["name"] : List String).getD i "")
        ((["title"] : List String).getD j "")) [some 0] ≤
      assignSum (fun i j => calculate_match_score ((["name"] : List String).getD i "")
        ((["title"] : List String).getD j "")) (internalAssignment ["title"] ["name"]) :=
  ⟨(C2_optimal_assignment [] ["name"]).2.1 rfl "name" (by decide),
   (C2_optimal_assignment ["title"] ["name"]).2.2.2.2 [some 0]
     ⟨by decide, by decide, by decide⟩⟩

theorem internalAssignment_isMatch (raw_columns template_columns : List String) :
    isMatchList template_columns.length raw_columns.length
      (internalAssignment raw_columns template_columns) :=
  (linear_sum_assignment_spec _ _ _).1

theorem fold_enum_entries (f : ℕ → Option String × ℚ) :
    ∀ (ps : List (ℕ × String)) (acc : Mapping),
      ∀ e ∈ ps.foldl (fun a p => dictInsert a p.2 (f p.1)) acc,
        e ∈ acc ∨ ∃ p ∈ ps, e.1 = p.2 ∧ e.2 = f p.1 := by
  intro ps
  induction ps with
  | nil => intro acc e he; exact Or.inl he
  | cons q ps ih =>
    intro acc e he
    simp only [List.foldl_cons] at he
    rcases ih _ e he with h | ⟨p, hp, h1, h2⟩
    · rcases mem_dictInsert acc q.2 (f q.1) e h with h' | h'
      · refine Or.inr ⟨q, List.mem_cons_self _ _, ?_, ?_⟩ <;> simp [h']
      · exact Or.inl h'
    · exact Or.inr ⟨p, List.mem_cons_of_mem q hp, h1, h2⟩

theorem fold_const_entries :
    ∀ (cols : List String) (acc : Mapping) (e : String × (Option String × ℚ)),
      e ∈ cols.foldl (fun a c => dictInsert a c (none, 0)) acc →
      e ∈ acc ∨ e.2 = (none, 0) := by
  intro cols
  induction cols with
  | nil => intro acc e he; exact Or.inl he
  | cons c cols ih =>
    intro acc e he
    simp only [List.foldl_cons] at he
    rcases ih _ e he with h | h
    · rcases mem_dictInsert acc c (none, 0) e h with h' | h'
      · exact Or.inr (by rw [h'])
      · exact Or.inl h'
    · exact Or.inr h

theorem fmhCost_score (raw_columns template_columns : List String) (i j : ℕ) :
    (100 : ℚ) - fmhCost raw_columns template_columns i j =
      calculate_match_score (template_columns.getD i "") (raw_columns.getD j "") := by
  simp only [fmhCost]
  ring

theorem fmh_entry_shape (threshold : ℚ) (raw_columns template_columns : List String) (i : ℕ) :
    fmhEntry threshold raw_columns template_columns i = (none, 0) ∨
    ∃ j, (internalAssignment raw_columns template_columns).getD i none = some j ∧
      threshold ≤ calculate_match_score (template_columns.getD i "") (raw_columns.getD j "") ∧
      fmhEntry threshold raw_columns template_columns i =
        (some (raw_columns.getD j ""),
          calculate_match_score (template_columns.getD i "") (raw_columns.getD j "") / 100) := by
  cases h : (internalAssignment raw_columns template_columns).getD i none with
  | none =>
    left
    unfold fmhEntry
    rw [h]
  | some j =>
    simp only [fmhEntry, h]
    split
    · rename_i hge
      right
      rw [fmhCost_score] at hge
      refine ⟨j, rfl, hge, ?_⟩
      rw [fmhCost_score]
    · left
      rfl

theorem fmhEntry_below (threshold : ℚ) (raw_columns template_columns : List String) (i j : ℕ)
    (hj : (internalAssignment raw_columns template_columns).getD i none = some j)
    (hlt : calculate_match_score (template_columns.getD i "") (raw_columns.getD j "") < threshold) :
    fmhEntry threshold raw_columns template_columns i = (none, 0) := by
  simp only [fmhEntry, hj]
  split
  · rename_i hge
    rw [fmhCost_score] at hge
    exact absurd hge (not_le.2 hlt)
  · rfl

theorem fmh_nonempty_form (threshold : ℚ) (raw_columns template_columns : List String)
    (hraw : raw_columns ≠ []) (htemp : template_columns ≠ []) :
    fuzzy_match_headers threshold raw_columns template_columns =
      template_columns.enum.foldl (fun acc p =>
        dictInsert acc p.2 (fmhEntry threshold raw_columns template_columns p.1)) [] := by
  simp [fuzzy_match_headers, hraw, htemp]

theorem fmh_member_shape (threshold : ℚ) (raw_columns template_columns : List String)
    (hraw : raw_columns ≠ []) (htemp : template_columns ≠ []) :
    ∀ e ∈ fuzzy_match_headers threshold raw_columns template_columns,
      ∃ i, i < template_columns.length ∧ template_columns.getD i "" = e.1 ∧
        e.2 = fmhEntry threshold raw_columns template_columns i := by
  intro e he
  rw [fmh_nonempty_form threshold raw_columns template_columns hraw htemp] at he
  rcases fold_enum_entries _ template_columns.enum [] e he with h | ⟨p, hp, h1, h2⟩
  · simp at h
  · have hx := List.mem_enum_iff_getElem?.1 hp
    rcases List.getElem?_eq_some_iff.1 hx with ⟨hlt, hget⟩
    refine ⟨p.1, hlt, ?_, h2⟩
    rw [List.getD_eq_getElem?_getD, List.getElem?_eq_getElem hlt]
    simp [hget, h1]

theorem getD_some_mem_somes :
    ∀ (l : List (Option ℕ)) (i j : ℕ), i < l.length → l.getD i none = some j →
      j ∈ l.filterMap id := by
  intro l
  induction l with
  | nil => intro i j h; simp at h
  | cons o t ih =>
    intro i j hi hg
    cases i with
    | zero =>
      rw [List.getD_cons_zero] at hg
      subst hg
      simp
    | succ i' =>
      rw [List.getD_cons_succ] at hg
      have hmem := ih i' j (by simpa using hi) hg
      cases o with
      | none => simpa using hmem
      | some a =>
        simp only [List.filterMap_cons, id]
        exact List.mem_cons_of_mem a hmem

theorem nodup_somes_getD :
    ∀ (l : List (Option ℕ)), (l.filterMap id).Nodup →
      ∀ i1 i2 j, i1 < l.length → i2 < l.length → i1 ≠ i2 →
        l.getD i1 none = some j → l.getD i2 none = some j → False := by
  intro l
  induction l with
  | nil => intro _ i1 i2 j h1; simp at h1
  | cons o t ih =>
    intro hnd i1 i2 j h1 h2 hne hg1 hg2
    have hhead : ∀ i2' : ℕ, o = some j → i2' < t.length → t.getD i2' none = some j → False := by
      intro i2' ho hi2' hg
      subst ho
      have hmem := getD_some_mem_somes t i2' j hi2' hg
      simp only [List.filterMap_cons, id] at hnd
      exact (List.nodup_cons.1 hnd).1 hmem
    cases i1 with
    | zero =>
      cases i2 with
      | zero => exact hne rfl
      | succ i2' =>
        rw [List.getD_cons_zero] at hg1
        rw [List.getD_cons_succ] at hg2
        exact hhead i2' hg1 (by simpa using h2) hg2
    | succ i1' =>
      cases i2 with
      | zero =>
        rw [List.getD_cons_zero] at hg2
        rw [List.getD_cons_succ] at hg1
        exact hhead i1' hg2 (by simpa using h1) hg1
      | succ i2' =>
        rw [List.getD_cons_succ] at hg1 hg2
        have htnd : (t.filterMap id).Nodup := by
          cases o with
          | none => simpa using hnd
          | some a =>
            simp only [List.filterMap_cons, id] at hnd
            exact (List.nodup_cons.1 hnd).2
        exact ih htnd i1' i2' j (by simpa using h1) (by simpa using h2)
          (fun h => hne (by rw [h])) hg1 hg2

/-- C1 counterexample: with a duplicated raw column name, two distinct
template columns are mapped to the same raw column name, so the one-to-one
property fails on raw lists that repeat a name. -/
theorem C1_counterexample :
    ¬ oneToOne (fuzzy_match_headers 70 ["email", "email"] ["email", "mail"]) := by
  unfold oneToOne
  decide

/-- C1 (amended): when the raw column names are pairwise distinct, the
Mapping returned by `fuzzy_match_headers` is one-to-one — entries of two
distinct template columns never carry the same non-absent source column. -/
theorem C1_one_to_one (threshold : ℚ) (raw_columns template_columns : List String)
    (hnd : raw_columns.Nodup) :
    oneToOne (fuzzy_match_headers threshold raw_columns template_columns) := by
  intro e1 he1 e2 he2 hkey h1 h2
  by_cases hraw : raw_columns = []
  · subst hraw
    exfalso
    have hform : fuzzy_match_headers threshold [] template_columns =
        template_columns.foldl (fun acc c => dictInsert acc c (none, 0)) [] := by
      simp [fuzzy_match_headers]
    rw [hform] at he1
    rcases fold_const_entries template_columns [] e1 he1 with h | h
    · simp at h
    · exact h1 (by rw [h])
  by_cases htemp : template_columns = []
  · subst htemp
    exfalso
    simp [fuzzy_match_headers] at he1
  rcases fmh_member_shape threshold raw_columns template_columns hraw htemp e1 he1 with
    ⟨i1, hi1, hk1, hv1⟩
  rcases fmh_member_shape threshold raw_columns template_columns hraw htemp e2 he2 with
    ⟨i2, hi2, hk2, hv2⟩
  have hne12 : i1 ≠ i2 := by
    intro h
    exact hkey (by rw [← hk1, h, hk2])
  rcases fmh_entry_shape threshold raw_columns template_columns i1 with h | ⟨j1, hj1, _, hval1⟩
  · exact absurd (by rw [hv1, h]) h1
  rcases fmh_entry_shape threshold raw_columns template_columns i2 with h | ⟨j2, hj2, _, hval2⟩
  · exact absurd (by rw [hv2, h]) h2
  have hmatch := internalAssignment_isMatch raw_columns template_columns
  have hi1' : i1 < (internalAssignment raw_columns template_columns).length := by
    rw [hmatch.1]
    exact hi1
  have hi2' : i2 < (internalAssignment raw_columns template_columns).length := by
    rw [hmatch.1]
    exact hi2
  have hjne : j1 ≠ j2 := by
    intro h
    subst h
    exact nodup_somes_getD _ hmatch.2.2 i1 i2 j1 hi1' hi2' hne12 hj1 hj2
  have hj1m : j1 < raw_columns.length :=
    hmatch.2.1 j1 (getD_some_mem_somes _ i1 j1 hi1' hj1)
  have hj2m : j2 < raw_columns.length :=
    hmatch.2.1 j2 (getD_some_mem_somes _ i2 j2 hi2' hj2)
  have hr : raw_columns.getD j1 "" ≠ raw_columns.getD j2 "" := by
    intro h
    apply hjne
    rw [List.getD_eq_getElem?_getD, List.getElem?_eq_getElem hj1m,
      List.getD_eq_getElem?_getD, List.getElem?_eq_getElem hj2m] at h
    exact (hnd.getElem_inj_iff).1 (by simpa using h)
  rw [hv1, hval1, hv2, hval2]
  intro hcontra
  exact hr (Option.some.inj hcontra)

/-- C1 witness: the amended theorem applied to distinct raw columns,
discharging the Nodup hypothesis and the one-to-one property's hypotheses on
two concrete member entries. -/
theorem C1_witness :
    oneToOne (fuzzy_match_headers 70 ["email", "name"] ["email", "mail"]) :=
  C1_one_to_one 70 ["email", "name"] ["email", "mail"] (by decide)

theorem lookupA_fold_untouched (f : ℕ → Option String × ℚ) :
    ∀ (ps : List (ℕ × String)) (acc : Mapping) (k : String), (∀ p ∈ ps, p.2 ≠ k) →
      lookupA (ps.foldl (fun a p => dictInsert a p.2 (f p.1)) acc) k = lookupA acc k := by
  intro ps
  induction ps with
  | nil => intro acc k _; rfl
  | cons q ps ih =>
    intro acc k hk
    simp only [List.foldl_cons]
    rw [ih _ k (fun p hp => hk p (List.mem_cons_of_mem q hp)), lookupA_dictInsert]
    rw [if_neg (fun h => hk q (List.mem_cons_self q ps) h.symm)]

theorem lookupA_fold_enum (f : ℕ → Option String × ℚ) :
    ∀ (ps : List (ℕ × String)), (ps.map Prod.snd).Nodup →
      ∀ (acc : Mapping) (p : ℕ × String), p ∈ ps →
        lookupA (ps.foldl (fun a q => dictInsert a q.2 (f q.1)) acc) p.2 = some (f p.1) := by
  intro ps
  induction ps with
  | nil => intro _ acc p hp; simp at hp
  | cons q ps ih =>
    intro hnd acc p hp
    simp only [List.map_cons, List.nodup_cons] at hnd
    simp only [List.foldl_cons]
    rcases List.mem_cons.1 hp with h | hp'
    · subst h
      have hne : ∀ r ∈ ps, r.2 ≠ p.2 := by
        intro r hr hcontra
        exact hnd.1 (hcontra ▸ List.mem_map_of_mem Prod.snd hr)
      rw [lookupA_fold_untouched f ps _ p.2 hne, lookupA_dictInsert, if_pos rfl]
    · exact ih hnd.2 _ p hp'

/-- C4: every assigned pair whose score misses the threshold leaves its
template column unmapped as `(None, 0.0)` (stated for distinct template
names, a dict's key structure); every Mapping entry is either the
`(None, 0.0)` unmapped value or an accepted assigned pair carrying
confidence `score / 100`; at the default threshold 70 every mapped
confidence lies in `[0.7, 1]`. -/
theorem C4_threshold_gate (threshold : ℚ) (raw_columns template_columns : List String) :
    (∀ i j, i < template_columns.length →
      (internalAssignment raw_columns template_columns).getD i none = some j →
      calculate_match_score (template_columns.getD i "") (raw_columns.getD j "") < threshold →
      raw_columns ≠ [] → template_columns.Nodup →
      lookupA (fuzzy_match_headers threshold raw_columns template_columns)
        (template_columns.getD i "") = some (none, 0)) ∧
    (∀ e ∈ fuzzy_match_headers threshold raw_columns template_columns,
      e.2 = (none, 0) ∨
      ∃ i j, i < template_columns.length ∧
        (internalAssignment raw_columns template_columns).getD i none = some j ∧
        template_columns.getD i "" = e.1 ∧
        threshold ≤ calculate_match_score (template_columns.getD i "") (raw_columns.getD j "") ∧
        e.2 = (some (raw_columns.getD j ""),
          calculate_match_score (template_columns.getD i "") (raw_columns.getD j "") / 100)) ∧
    (threshold = 70 → ∀ e ∈ fuzzy_match_headers threshold raw_columns template_columns,
      e.2 = (none, 0) ∨ ∃ r c, e.2 = (some r, c) ∧ 7/10 ≤ c ∧ c ≤ 1) := by
  have hshape : ∀ e ∈ fuzzy_match_headers threshold raw_columns template_columns,
      e.2 = (none, 0) ∨
      ∃ i j, i < template_columns.length ∧
        (internalAssignment raw_columns template_columns).getD i none = some j ∧
        template_columns.getD i "" = e.1 ∧
        threshold ≤ calculate_match_score (template_columns.getD i "") (raw_columns.getD j "") ∧
        e.2 = (some (raw_columns.getD j ""),
          calculate_match_score (template_columns.getD i "") (raw_columns.getD j "") / 100) := by
    intro e he
    by_cases hraw : raw_columns = []
    · subst hraw
      have hform : fuzzy_match_headers threshold [] template_columns =
          template_columns.foldl (fun acc c => dictInsert acc c (none, 0)) [] := by
        simp [fuzzy_match_headers]
      rw [hform] at he
      rcases fold_const_entries template_columns [] e he with h | h
      · simp at h
      · exact Or.inl h
    by_cases htemp : template_columns = []
    · subst htemp
      simp [fuzzy_match_headers] at he
    rcases fmh_member_shape threshold raw_columns template_columns hraw htemp e he with
      ⟨i, hi, hk, hv⟩
    rcases fmh_entry_shape threshold raw_columns template_columns i with h | ⟨j, hj, hge, hval⟩
    · exact Or.inl (by rw [hv, h])
    · exact Or.inr ⟨i, j, hi, hj, hk, hge, by rw [hv, hval]⟩
  refine ⟨?_, hshape, ?_⟩
  · intro i j hi hj hlt hraw hndt
    by_cases htemp : template_columns = []
    · subst htemp
      simp at hi
    rw [fmh_nonempty_form threshold raw_columns template_columns hraw htemp]
    have hp : (i, template_columns.getD i "") ∈ template_columns.enum := by
      apply List.mk_mem_enum_iff_getElem?.2
      rw [List.getD_eq_getElem?_getD, List.getElem?_eq_getElem hi]
      rfl
    have hlk := lookupA_fold_enum (fmhEntry threshold raw_columns template_columns)
      template_columns.enum (by rw [List.enum_map_snd]; exact hndt) []
      (i, template_columns.getD i "") hp
    rw [hlk, fmhEntry_below threshold raw_columns template_columns i j hj hlt]
  · intro hth e he
    rcases hshape e he with h | ⟨i, j, _, _, _, hge, hval⟩
    · exact Or.inl h
    · rcases calculate_match_score_bounds (template_columns.getD i "") (raw_columns.getD j "")
        with ⟨_, hub⟩
      rw [hth] at hge
      refine Or.inr ⟨raw_columns.getD j "",
        calculate_match_score (template_columns.getD i "") (raw_columns.getD j "") / 100,
        hval, ?_, ?_⟩ <;> linarith

/-- C4 witness: the theorem applied to concrete inputs — a below-threshold
pair that gets the unmapped value, and a synonym pair whose confidence lies
in the default band. -/
theorem C4_witness :
    lookupA (fuzzy_match_headers 70 ["aaa"] ["zzz"]) "zzz" = some (none, 0) ∧
    (("mail", (some "email", 19/20)).2 = ((none : Option String), (0 : ℚ)) ∨
      ∃ (r : String) (c : ℚ),
        ("mail", (some "email", 19/20)).2 = (some r, c) ∧ 7/10 ≤ c ∧ c ≤ 1) :=
  ⟨by
    have h := (C4_threshold_gate 70 ["aaa"] ["zzz"]).1 0 0 (by decide) (by decide)
      (by decide) (by decide) (by decide)
    simpa using h,
   (C4_threshold_gate 70 ["email"] ["mail"]).2.2 rfl ("mail", (some "email", 19/20))
     (by decide)⟩

/-! ### Facts about the pattern detector (claim C8) -/

/-- C8: `detect_data_patterns` classifies the first 10 non-null stringified
values in fixed priority order — `email` exactly when every sample matches
the email regex, else `numeric` when every currency-stripped sample parses
numerically (regardless of the date parser, so all-numeric columns are
`numeric` even if date-like), else `date` when strictly more than half the
samples parse as dates, else `text`; an empty or all-null series is `text`
and never a failure. The `pd.to_numeric` / `pd.to_datetime` element parsers
are oracles, and the classification holds for every choice of them. -/
theorem C8_pattern_priority (numOracle dateOracle : String → Bool)
    (series : List (Option String)) :
    (series.filterMap id = [] →
      detect_data_patterns numOracle dateOracle series = "text") ∧
    (series.filterMap id ≠ [] →
      ((series.filterMap id).take 10).all (fun x => emailMatch x.data) = true →
      detect_data_patterns numOracle dateOracle series = "email") ∧
    (series.filterMap id ≠ [] →
      ((series.filterMap id).take 10).all (fun x => emailMatch x.data) = false →
      (((series.filterMap id).take 10).map
        (fun x => String.mk (stripCurrencySeps x.data))).all numOracle = true →
      detect_data_patterns numOracle dateOracle series = "numeric") ∧
    (series.filterMap id ≠ [] →
      ((series.filterMap id).take 10).all (fun x => emailMatch x.data) = false →
      (((series.filterMap id).take 10).map
        (fun x => String.mk (stripCurrencySeps x.data))).all numOracle = false →
      ((series.filterMap id).take 10).length <
        2 * ((series.filterMap id).take 10).countP (fun x => dateOracle x) →
      detect_data_patterns numOracle dateOracle series = "date") ∧
    (series.filterMap id ≠ [] →
      ((series.filterMap id).take 10).all (fun x => emailMatch x.data) = false →
      (((series.filterMap id).take 10).map
        (fun x => String.mk (stripCurrencySeps x.data))).all numOracle = false →
      2 * ((series.filterMap id).take 10).countP (fun x => dateOracle x) ≤
        ((series.filterMap id).take 10).length →
      detect_data_patterns numOracle dateOracle series = "text") := by
  have hlen : series.filterMap id ≠ [] → ¬ (series.filterMap id).length = 0 := by
    intro h hc
    exact h (List.length_eq_zero.1 hc)
  refine ⟨?_, ?_, ?_, ?_, ?_⟩
  · intro h
    simp only [detect_data_patterns]
    rw [if_pos (by rw [h]; rfl)]
  · intro h he
    simp only [detect_data_patterns]
    rw [if_neg (hlen h), if_pos he]
  · intro h he hn
    simp only [detect_data_patterns]
    rw [if_neg (hlen h), if_neg (by rw [he]; exact Bool.false_ne_true), if_pos hn]
  · intro h he hn hd
    simp only [detect_data_patterns]
    rw [if_neg (hlen h), if_neg (by rw [he]; exact Bool.false_ne_true),
      if_neg (by rw [hn]; exact Bool.false_ne_true), if_pos hd]
  · intro h he hn hd
    simp only [detect_data_patterns]
    rw [if_neg (hlen h), if_neg (by rw [he]; exact Bool.false_ne_true),
      if_neg (by rw [hn]; exact Bool.false_ne_true), if_neg (not_lt.2 hd)]

/-- C8 witness: concrete series hitting each branch — an all-null series, an
email sample, an all-numeric sample classified `numeric` even though the
concrete date oracle accepts everything, and a date sample. -/
theorem C8_witness :
    detect_data_patterns (fun s => s.data.all Char.isDigit) (fun _ => true) [none] = "text" ∧
    detect_data_patterns (fun s => s.data.all Char.isDigit) (fun _ => true)
      [some "a@b.co"] = "email" ∧
    detect_data_patterns (fun s => s.data.all Char.isDigit) (fun _ => true)
      [some "1,234"] = "numeric" ∧
    detect_data_patterns (fun s => s.data.all Char.isDigit) (fun _ => true)
      [some "jan 2020"] = "date" :=
  ⟨(C8_pattern_priority _ _ [none]).1 (by decide),
   (C8_pattern_priority _ _ [some "a@b.co"]).2.1 (by decide) (by decide),
   (C8_pattern_priority _ _ [some "1,234"]).2.2.1 (by decide) (by decide) (by decide),
   (C8_pattern_priority _ _ [some "jan 2020"]).2.2.2.1 (by decide) (by decide) (by decide)
     (by decide)⟩

/-! ### Facts about the pattern-enhancement pass (claim C5) -/

theorem spmFindMatch_spec (rp : List (String × String)) (tpat : String) (cur : ℚ) :
    ∀ (unused : List String) (r : String) (rest : List String),
      spmFindMatch rp tpat cur unused = some (r, rest) →
      cur < 3/5 ∧ lookupA rp r = some tpat ∧
      ∃ pre post, unused = pre ++ r :: post ∧ rest = pre ++ post := by
  intro unused
  induction unused with
  | nil => intro r rest h; simp [spmFindMatch] at h
  | cons r0 t ih =>
    intro r rest h
    simp only [spmFindMatch] at h
    split at h
    · rename_i hcond
      rcases Prod.mk.injEq .. ▸ Option.some.inj h with ⟨h1, h2⟩
      subst h1
      subst h2
      exact ⟨hcond.2, hcond.1, [], t, rfl, rfl⟩
    · rename_i hcond
      rcases hm : spmFindMatch rp tpat cur t with _ | ⟨r2, rest2⟩
      · rw [hm] at h
        simp at h
      · rw [hm] at h
        rcases ih r2 rest2 hm with ⟨hc, hl, pre, post, hu, hr⟩
        rcases Prod.mk.injEq .. ▸ Option.some.inj h with ⟨h1, h2⟩
        subst h1
        subst h2
        exact ⟨hc, hl, r0 :: pre, post, by rw [hu]; simp, by rw [hr]; simp⟩

theorem spmInv_step (rp tp : List (String × String)) (m0 : Mapping) (U0 : List String)
    (em : Mapping) (unused : List String) (t tpat : String) (cur_entry : Option String × ℚ)
    (r : String) (rest : List String)
    (hinv : spmInv tp m0 U0 em unused)
    (htp : lookupA tp t = some tpat) (htext : tpat ≠ "text")
    (hem : lookupA em t = some cur_entry)
    (hfind : spmFindMatch rp tpat cur_entry.2 unused = some (r, rest)) :
    spmInv tp m0 U0 (dictInsert em t (some r, 3/5)) rest := by
  rcases hinv with ⟨hsub, hnd, hA, hC⟩
  rcases spmFindMatch_spec rp tpat cur_entry.2 unused r rest hfind with
    ⟨hcur, _, pre, post, hu, hr⟩
  subst hu
  subst hr
  have hrmem : r ∈ pre ++ r :: post := by simp
  have hrestsub : ∀ x ∈ pre ++ post, x ∈ pre ++ r :: post := by
    intro x hx
    rcases List.mem_append.1 hx with h | h
    · exact List.mem_append_left _ h
    · exact List.mem_append_right _ (List.mem_cons_of_mem r h)
  have hrestnd : (pre ++ post).Nodup := by
    have h1 := List.nodup_middle.1 hnd
    exact (List.nodup_cons.1 h1).2
  have hrnotrest : r ∉ pre ++ post := by
    have h1 := List.nodup_middle.1 hnd
    exact (List.nodup_cons.1 h1).1
  have hp : ∃ p, lookupA m0 t = some p ∧ p.2 < 3/5 := by
    rcases hA t with h | ⟨p, r', hm0, hplt, hemt, _⟩
    · exact ⟨cur_entry, by rw [← h, hem], hcur⟩
    · rw [hem] at hemt
      have : cur_entry = (some r', 3/5) := Option.some.inj hemt
      rw [this] at hcur
      norm_num at hcur
  rcases hp with ⟨p, hm0t, hplt⟩
  refine ⟨fun x hx => hsub x (hrestsub x hx), hrestnd, ?_, ?_⟩
  · intro t'
    by_cases ht' : t' = t
    · subst ht'
      right
      refine ⟨p, r, hm0t, hplt, ?_, hsub r hrmem, hrnotrest, ?_, ?_⟩
      · rw [lookupA_dictInsert, if_pos rfl]
      · rw [htp]
        simp
      · rw [htp]
        intro hcontra
        exact htext (Option.some.inj hcontra)
    · rw [lookupA_dictInsert, if_neg ht']
      rcases hA t' with h | ⟨p', r', hm0', hplt', hem', hrU, hrun, htpn, htpt⟩
      · exact Or.inl h
      · refine Or.inr ⟨p', r', hm0', hplt', hem', hrU, ?_, htpn, htpt⟩
        intro hcontra
        exact hrun (hrestsub r' hcontra)
  · intro t1 t2 r1 r2 hne h1ne h1eq h2ne h2eq
    by_cases ht1 : t1 = t <;> by_cases ht2 : t2 = t
    · exact absurd (ht1.trans ht2.symm) hne
    · subst ht1
      rw [lookupA_dictInsert, if_pos rfl] at h1eq
      have hr1 : r1 = r :=
        (Option.some.inj (congrArg Prod.fst (Option.some.inj h1eq))).symm
      subst hr1
      rw [lookupA_dictInsert, if_neg ht2] at h2ne h2eq
      rcases hA t2 with h | ⟨p', r', _, _, hem', _, hrun, _, _⟩
      · exact absurd h h2ne
      · rw [h2eq] at hem'
        have : r2 = r' := by
          have h' := Option.some.inj hem'
          exact Option.some.inj (Prod.mk.injEq .. ▸ h').1
        subst this
        intro hcontra
        exact hrun (hcontra ▸ hrmem)
    · subst ht2
      rw [lookupA_dictInsert, if_pos rfl] at h2eq
      have hr2 : r2 = r :=
        (Option.some.inj (congrArg Prod.fst (Option.some.inj h2eq))).symm
      subst hr2
      rw [lookupA_dictInsert, if_neg ht1] at h1ne h1eq
      rcases hA t1 with h | ⟨p', r', _, _, hem', _, hrun, _, _⟩
      · exact absurd h h1ne
      · rw [h1eq] at hem'
        have : r1 = r' := by
          have h' := Option.some.inj hem'
          exact Option.some.inj (Prod.mk.injEq .. ▸ h').1
        subst this
        intro hcontra
        exact hrun (hcontra ▸ hrmem)
    · rw [lookupA_dictInsert, if_neg ht1] at h1ne h1eq
      rw [lookupA_dictInsert, if_neg ht2] at h2ne h2eq
      exact hC t1 t2 r1 r2 hne h1ne h1eq h2ne h2eq

theorem spmLoop_cons_skip {rp tp : List (String × String)} {t : String} {ts : List String}
    {em : Mapping} {unused : List String}
    (h : lookupA tp t = none ∨ lookupA tp t = some "text" ∨
      (∃ tpat, lookupA tp t = some tpat ∧ tpat ≠ "text" ∧ lookupA em t = none) ∨
      (∃ tpat cur_entry, lookupA tp t = some tpat ∧ tpat ≠ "text" ∧
        lookupA em t = some cur_entry ∧
        spmFindMatch rp tpat cur_entry.2 unused = none)) :
    spmLoop rp tp (t :: ts) em unused = spmLoop rp tp ts em unused := by
  rcases h with h | h | ⟨tpat, h1, h2, h3⟩ | ⟨tpat, cur_entry, h1, h2, h3, h4⟩
  · simp [spmLoop, h]
  · simp [spmLoop, h]
  · simp [spmLoop, h1, h2, h3]
  · simp [spmLoop, h1, h2, h3, h4]

theorem spmLoop_cons_find {rp tp : List (String × String)} {t : String} {ts : List String}
    {em : Mapping} {unused : List String} {tpat : String} {cur_entry : Option String × ℚ}
    {r : String} {rest : List String}
    (h1 : lookupA tp t = some tpat) (h2 : tpat ≠ "text")
    (h3 : lookupA em t = some cur_entry)
    (h4 : spmFindMatch rp tpat cur_entry.2 unused = some (r, rest)) :
    spmLoop rp tp (t :: ts) em unused =
      spmLoop rp tp ts (dictInsert em t (some r, 3/5)) rest := by
  simp [spmLoop, h1, h2, h3, h4]

theorem spmLoop_inv (rp tp : List (String × String)) (m0 : Mapping) (U0 : List String) :
    ∀ (ts : List String) (em : Mapping) (unused : List String),
      spmInv tp m0 U0 em unused →
      ∃ unused', spmInv tp m0 U0 (spmLoop rp tp ts em unused) unused' := by
  intro ts
  induction ts with
  | nil => intro em unused h; exact ⟨unused, h⟩
  | cons t ts ih =>
    intro em unused h
    rcases htp : lookupA tp t with _ | tpat
    · rw [spmLoop_cons_skip (Or.inl htp)]
      exact ih em unused h
    · by_cases htext : tpat = "text"
      · subst htext
        rw [spmLoop_cons_skip (Or.inr (Or.inl htp))]
        exact ih em unused h
      · rcases hem : lookupA em t with _ | cur_entry
        · rw [spmLoop_cons_skip (Or.inr (Or.inr (Or.inl ⟨tpat, htp, htext, hem⟩)))]
          exact ih em unused h
        · rcases hfind : spmFindMatch rp tpat cur_entry.2 unused with _ | ⟨r, rest⟩
          · rw [spmLoop_cons_skip
              (Or.inr (Or.inr (Or.inr ⟨tpat, cur_entry, htp, htext, hem, hfind⟩)))]
            exact ih em unused h
          · rw [spmLoop_cons_find htp htext hem hfind]
            exact ih _ rest (spmInv_step rp tp m0 U0 em unused t tpat cur_entry r rest
              h htp htext hem hfind)

theorem lookupA_mem {α : Type} {m : List (String × α)} {k : String} {v : α}
    (h : lookupA m k = some v) : (k, v) ∈ m := by
  unfold lookupA at h
  rcases hf : m.find? (fun p => p.1 = k) with _ | p
  · rw [hf] at h
    simp at h
  · rw [hf] at h
    have hp := List.find?_some hf
    have hm := List.mem_of_find?_eq_some hf
    have hk : p.1 = k := by simpa using hp
    have hv : p.2 = v := by simpa using h
    have hpe : p = (k, v) := Prod.ext hk hv
    exact hpe ▸ hm

/-- C5: the pattern-enhancement pass never decreases any target's
confidence; an entry it rewrites had confidence below 0.6, receives exactly
0.6, belongs to a target whose detected pattern is not `text`, and takes a
source column that no target of the input Mapping used; and two entries
never end up sharing a source column unless both came unchanged from the
input. Raw column names are assumed pairwise distinct (pandas aborts on a
duplicated label before this pass could double-assign it). -/
theorem C5_pattern_pass (numOracle dateOracle : String → Bool)
    (raw_df template_df : DataFrame) (m : Mapping)
    (hnd : (dfColumns raw_df).Nodup) :
    (∀ t p, lookupA m t = some p →
      ∃ q, lookupA (semantic_pattern_match numOracle dateOracle raw_df template_df m) t =
        some q ∧ p.2 ≤ q.2) ∧
    (∀ t p q, lookupA m t = some p →
      lookupA (semantic_pattern_match numOracle dateOracle raw_df template_df m) t = some q →
      q ≠ p →
      p.2 < 3/5 ∧ q.2 = 3/5 ∧
      lookupA (dfPatterns numOracle dateOracle template_df) t ≠ some "text" ∧
      ∃ r, q.1 = some r ∧ ∀ e ∈ m, e.2.1 ≠ some r) ∧
    (∀ t1 t2 p1 q1 q2 r1 r2, t1 ≠ t2 →
      lookupA m t1 = some p1 →
      lookupA (semantic_pattern_match numOracle dateOracle raw_df template_df m) t1 = some q1 →
      q1 ≠ p1 →
      lookupA (semantic_pattern_match numOracle dateOracle raw_df template_df m) t2 = some q2 →
      q1.1 = some r1 → q2.1 = some r2 → r1 ≠ r2) := by
  have hU0nd : ((dfColumns raw_df).filter
      (fun c => !((m.filterMap (fun e => e.2.1)).contains c))).Nodup := hnd.filter _
  have hbase : spmInv (dfPatterns numOracle dateOracle template_df) m
      ((dfColumns raw_df).filter (fun c => !((m.filterMap (fun e => e.2.1)).contains c)))
      m ((dfColumns raw_df).filter (fun c => !((m.filterMap (fun e => e.2.1)).contains c))) :=
    ⟨fun x hx => hx, hU0nd, fun t => Or.inl rfl,
     fun t1 t2 r1 r2 _ h1 _ _ _ => absurd rfl h1⟩
  have hloop := spmLoop_inv (dfPatterns numOracle dateOracle raw_df)
    (dfPatterns numOracle dateOracle template_df) m
    ((dfColumns raw_df).filter (fun c => !((m.filterMap (fun e => e.2.1)).contains c)))
    (m.filterMap (fun e => if e.2.1 = none ∨ e.2.2 < 4/5 then some e.1 else none)) m
    ((dfColumns raw_df).filter (fun c => !((m.filterMap (fun e => e.2.1)).contains c))) hbase
  have hres : semantic_pattern_match numOracle dateOracle raw_df template_df m =
      spmLoop (dfPatterns numOracle dateOracle raw_df)
        (dfPatterns numOracle dateOracle template_df)
        (m.filterMap (fun e => if e.2.1 = none ∨ e.2.2 < 4/5 then some e.1 else none)) m
        ((dfColumns raw_df).filter (fun c => !((m.filterMap (fun e => e.2.1)).contains c))) :=
    rfl
  rw [hres]
  rcases hloop with ⟨uF, hsubF, _, hAF, hCF⟩
  have hfresh : ∀ x, x ∈ ((dfColumns raw_df).filter
      (fun c => !((m.filterMap (fun e => e.2.1)).contains c))) →
      ∀ e ∈ m, e.2.1 ≠ some x := by
    intro x hx e he hcontra
    have hnc := (List.mem_filter.1 hx).2
    have hxmem : x ∈ m.filterMap (fun e => e.2.1) :=
      List.mem_filterMap.2 ⟨e, he, hcontra⟩
    have hcont : (m.filterMap (fun e => e.2.1)).contains x = true := by
      rw [List.contains_eq_any_beq]
      exact List.any_eq_true.2 ⟨x, hxmem, by simp⟩
    rw [hcont] at hnc
    simp at hnc
  refine ⟨?_, ?_, ?_⟩
  · intro t p hmt
    rcases hAF t with h | ⟨p', r', hm0, hplt, hemt, _⟩
    · exact ⟨p, by rw [h, hmt], le_refl _⟩
    · rw [hmt] at hm0
      have hpp : p = p' := Option.some.inj hm0
      subst hpp
      exact ⟨(some r', 3/5), hemt, le_of_lt hplt⟩
  · intro t p q hmt hrt hne
    rcases hAF t with h | ⟨p', r', hm0, hplt, hemt, hrU, _, _, htpt⟩
    · rw [h, hmt] at hrt
      exact absurd (Option.some.inj hrt).symm hne
    · rw [hmt] at hm0
      have hpp : p = p' := Option.some.inj hm0
      subst hpp
      rw [hrt] at hemt
      have hq : q = (some r', 3/5) := Option.some.inj hemt
      subst hq
      exact ⟨hplt, rfl, htpt, r', rfl, hfresh r' hrU⟩
  · intro t1 t2 p1 q1 q2 r1 r2 hne hm1 hr1 hne1 hr2 hq1 hq2
    have hch1 : lookupA (spmLoop (dfPatterns numOracle dateOracle raw_df)
        (dfPatterns numOracle dateOracle template_df)
        (m.filterMap (fun e => if e.2.1 = none ∨ e.2.2 < 4/5 then some e.1 else none)) m
        ((dfColumns raw_df).filter (fun c => !((m.filterMap (fun e => e.2.1)).contains c)))) t1 ≠
        lookupA m t1 := by
      rw [hr1, hm1]
      intro h
      exact hne1 (Option.some.inj h)
    rcases hAF t1 with h | ⟨p1', r1', hm01, hplt1, hemt1, hrU1, _, _, _⟩
    · exact absurd h hch1
    rw [hr1] at hemt1
    have hq1' : q1 = (some r1', 3/5) := Option.some.inj hemt1
    have hr1eq : r1 = r1' := by
      rw [hq1'] at hq1
      exact (Option.some.inj hq1).symm
    subst hr1eq
    rcases hAF t2 with h | ⟨p2', r2', hm02, hplt2, hemt2, _, _, _, _⟩
    · rw [h] at hr2
      have hmem2 := lookupA_mem hr2
      intro hcontra
      refine hfresh r1 hrU1 (t2, q2) hmem2 ?_
      show q2.1 = some r1
      rw [hq2, hcontra]
    · rw [hr2] at hemt2
      have hq2' : q2 = (some r2', 3/5) := Option.some.inj hemt2
      have hr2eq : r2 = r2' := by
        rw [hq2'] at hq2
        exact (Option.some.inj hq2).symm
      subst hr2eq
      have hch2 : lookupA (spmLoop (dfPatterns numOracle dateOracle raw_df)
          (dfPatterns numOracle dateOracle template_df)
          (m.filterMap (fun e => if e.2.1 = none ∨ e.2.2 < 4/5 then some e.1 else none)) m
          ((dfColumns raw_df).filter
            (fun c => !((m.filterMap (fun e => e.2.1)).contains c)))) t2 ≠
          lookupA m t2 := by
        rw [hr2, hm02]
        intro h
        have := Option.some.inj h
        rw [hq2'] at this
        rw [← this] at hplt2
        norm_num at hplt2
      exact hCF t1 t2 r1 r2 hne hch1 (by rw [hr1, hq1']) hch2 (by rw [hr2, hq2'])

/-- C5 witness: the theorem applied to a concrete run — an unmapped date
target picks up the unused date-patterned raw column at confidence exactly
0.6, never decreasing the original confidence. -/
theorem C5_witness :
    (∃ q, lookupA (semantic_pattern_match (fun s => s.data.all Char.isDigit)
        (fun s => s == "2020-01-01" || s == "2020-02-02")
        [("d", [some "2020-01-01"]), ("n", [some "5"])] [("t", [some "2020-02-02"])]
        [("t", (none, 0))]) "t" = some q ∧
      ((none : Option String), (0 : ℚ)).2 ≤ q.2) ∧
    (((none : Option String), (0 : ℚ)).2 < 3/5 ∧
      ((some "d" : Option String), (3/5 : ℚ)).2 = 3/5 ∧
      lookupA (dfPatterns (fun s => s.data.all Char.isDigit)
        (fun s => s == "2020-01-01" || s == "2020-02-02")
        [("t", [some "2020-02-02"])]) "t" ≠ some "text" ∧
      ∃ r, ((some "d" : Option String), (3/5 : ℚ)).1 = some r ∧
        ∀ e ∈ ([("t", ((none : Option String), (0 : ℚ)))] : Mapping), e.2.1 ≠ some r) :=
  ⟨(C5_pattern_pass (fun s => s.data.all Char.isDigit)
      (fun s => s == "2020-01-01" || s == "2020-02-02")
      [("d", [some "2020-01-01"]), ("n", [some "5"])] [("t", [some "2020-02-02"])]
      [("t", (none, 0))] (by decide)).1 "t" (none, 0) (by decide),
   (C5_pattern_pass (fun s => s.data.all Char.isDigit)
      (fun s => s == "2020-01-01" || s == "2020-02-02")
      [("d", [some "2020-01-01"]), ("n", [some "5"])] [("t", [some "2020-02-02"])]
      [("t", (none, 0))] (by decide)).2.1 "t" (none, 0) (some "d", 3/5)
      (by decide) (by decide) (by decide)⟩

/-! ### Facts about the contamination detector (claim C6) -/

/-- C6: on a two-row column holding one null, `_detect_value_contamination`
aborts — it samples `min(sample_size, len(df[col])) = 2` values from a
non-null pool of size 1, and `pandas.Series.sample` raises `ValueError`
(modelled by `none`); a null-free column of the same shape is processed
without error. The spec requires the core never to abort on well-typed
input, so this is a defect of the code, not of the claim. -/
theorem C6_sampling_aborts_on_nulls :
    detect_value_contamination [("a", [some "x", none])] 100 = none ∧
    detect_value_contamination [("a", [some "x", some "x"])] 100 ≠ none := by
  constructor <;> decide

/-! ### Facts about the review-surface update (claim C7) -/

/-- C7: the `edited_mappings` update of `src/app.py` ignores whether the
reviewer's selection differs from the auto-computed suggestion: with an
auto suggestion of confidence 0.8 and a different column selected, the code
stores the old confidence 0.8 instead of the 1.0 the spec (and the code's
own comment) requires. -/
theorem C7_override_keeps_old_confidence :
    app_update_mapping (4/5) "b" = (some "b", 4/5) ∧ (4/5 : ℚ) ≠ 1 := by
  constructor <;> decide

/-! ### Facts about the metadata serializer (claim C10) -/

/-- C10: when every confidence lies in the engine's `[0, 1]` scale, the
serializer labels every entry `manual` (the `automatic` label needs
confidence at least 80) and the quality report counts zero high-confidence
mappings. -/
theorem C10_manual_labels (m : Mapping)
    (hconf : ∀ e ∈ m, 0 ≤ e.2.2 ∧ e.2.2 ≤ 1) :
    (∀ e ∈ serialize_mappings m, e.2.2.2 = "manual") ∧
    (m ≠ [] →
      lookupA (calculate_mapping_quality m) "high_confidence_mappings" = some 0) := by
  constructor
  · intro e he
    rcases List.mem_map.1 he with ⟨e0, he0, rfl⟩
    show (if e0.2.2 ≠ 0 ∧ e0.2.2 ≥ 80 then "automatic" else "manual") = "manual"
    rw [if_neg]
    rintro ⟨_, hge⟩
    have h1 := (hconf e0 he0).2
    linarith
  · intro hne
    have htot : ¬ m.length = 0 := fun h => hne (List.length_eq_zero.1 h)
    have hcount : m.countP (fun e => pyTruthyCol e.2.1 && decide (e.2.2 ≥ 80)) = 0 := by
      rw [List.countP_eq_zero]
      intro e he
      simp only [Bool.and_eq_true, decide_eq_true_eq, not_and]
      intro _ hge
      have h1 := (hconf e he).2
      linarith
    simp only [calculate_mapping_quality, if_neg htot]
    rw [lookupA_cons_neg _ _ _ (by simp), lookupA_cons_neg _ _ _ (by simp),
      lookupA_cons_neg _ _ _ (by simp), lookupA_cons_pos _ _ _ rfl]
    rw [hcount]
    norm_num

/-- C10 witness: the theorem applied to a concrete one-entry mapping with
confidence one half. -/
theorem C10_witness :
    (∀ e ∈ serialize_mappings [("a", (some "b", 1/2))], e.2.2.2 = "manual") ∧
    lookupA (calculate_mapping_quality [("a", (some "b", 1/2))])
      "high_confidence_mappings" = some 0 :=
  ⟨(C10_manual_labels [("a", (some "b", 1/2))] (by decide)).1,
   (C10_manual_labels [("a", (some "b", 1/2))] (by decide)).2 (by decide)⟩

example : normalize_header "Cust  Addr!" = "customer address" := by decide
example : calculate_match_score "Email" "E-Mail" = 100 := by decide
example : calculate_match_score "mail" "email" = 95 := by decide
example : calculate_match_score "ab cd" "ab ef" = 0 := by decide
example : emailMatch "a.b@x-y.co".data = true := by decide
example : emailMatch "a@b".data = false := by decide
example :
    fuzzy_match_headers 70 ["email", "email"] ["email", "mail"] =
      [("email", (some "email", 1)), ("mail", (some "email", 19/20))] := by decide
example :
    detect_value_contamination [("a", [some "x", none])] 100 = none := by decide

end
